import Mathlib

/-!
Verification of the incremental blob-storage backup engine of
collective.recipe.backup (`src/collective/recipe/backup/repobo.py` and
`src/collective/recipe/backup/repoborunner.py`).

The embedding below models:
  * directory trees (`FsTree`, `Forest`) and the recursive listing `listd`;
  * repository archives (`Archive`): a timestamp, a kind (`.blobs` full
    backups versus `.deltablobs` incremental backups) and the list of tar
    member entries stored inside;
  * the chain resolver `find_files`, the member-name reader `concat`, the
    planner `do_backup` with its two writers `do_full_backup` and
    `do_incremental_backup`, and the restorer `do_recover`;
  * the retention function `cleanup` of repoborunner.py, which works on
    plain file names and modification times.

Python's `list.sort` / `sorted` are stable sorts; they are modelled by the
structurally recursive stable insertion sort `pySort`, which computes the
same list as any stable sort.  Python `set` values are modelled by lists
compared and combined through membership (`pySetEq`, `pySubsetB`,
`pyDiff`), matching how the source only ever uses the sets.  Archive
timestamps are the `YYYY-MM-DD-HH-MM-SS` strings of `gen_filename`; the
fixed-width zero-padded encoding makes lexicographic string order agree
with chronological order, so stamps are modelled as `Nat`.  On names
`STAMP.blobs` / `STAMP.deltablobs` the string order used by `all.sort()`
is: stamp first, and at equal stamps `.blobs` before `.deltablobs`; the
key `Archive.akey` encodes exactly this order.
-/

namespace Repobo

/-- A path relative to a root directory, as the list of its components
(`os.path.join` concatenations in the source). -/
abbrev FPath := List String

/-- A directory tree: a blob file, or a directory with named children in
`os.listdir` order. -/
inductive FsTree where
  | file : FsTree
  | dir : List (String × FsTree) → FsTree
deriving Repr

/-- The children of a directory: the content of a directory on disk. -/
abbrev Forest := List (String × FsTree)

mutual

def FsTree.beq : FsTree → FsTree → Bool
  | .file, .file => true
  | .dir cs, .dir ds => forestBeq cs ds
  | _, _ => false

def forestBeq : Forest → Forest → Bool
  | [], [] => true
  | (n, c) :: r, (m, d) :: s => n == m && FsTree.beq c d && forestBeq r s
  | _, _ => false

end

mutual

theorem FsTree.beq_iff : ∀ a b : FsTree, FsTree.beq a b = true ↔ a = b
  | .file, .file => by simp [FsTree.beq]
  | .file, .dir _ => by simp [FsTree.beq]
  | .dir _, .file => by simp [FsTree.beq]
  | .dir cs, .dir ds => by
      simp only [FsTree.beq, FsTree.dir.injEq]
      exact forestBeq_iff cs ds

theorem forestBeq_iff : ∀ a b : Forest, forestBeq a b = true ↔ a = b
  | [], [] => by simp [forestBeq]
  | [], _ :: _ => by simp [forestBeq]
  | _ :: _, [] => by simp [forestBeq]
  | (n, c) :: r, (m, d) :: s => by
      simp only [forestBeq, Bool.and_eq_true, beq_iff_eq, List.cons.injEq,
        Prod.mk.injEq, FsTree.beq_iff c d, forestBeq_iff r s]

end

instance : DecidableEq FsTree := fun a b =>
  decidable_of_iff (FsTree.beq a b = true) (FsTree.beq_iff a b)

instance {ε α : Type} [DecidableEq ε] [DecidableEq α] :
    DecidableEq (Except ε α) := fun x y =>
  match x, y with
  | .ok a, .ok b => decidable_of_iff (a = b) (by simp)
  | .error a, .error b => decidable_of_iff (a = b) (by simp)
  | .ok _, .error _ => isFalse (by simp)
  | .error _, .ok _ => isFalse (by simp)

/-- Find the child of a directory with a given name (`os.listdir` names are
unique within one directory, see `wfForest`). -/
def childNamed : Forest → String → Option FsTree
  | [], _ => none
  | (m, t) :: rest, n => if m = n then some t else childNamed rest n

/-- Resolve a relative path inside a tree. -/
def nodeAt : FsTree → FPath → Option FsTree
  | t, [] => some t
  | .file, _ :: _ => none
  | .dir cs, n :: p =>
      match childNamed cs n with
      | some c => nodeAt c p
      | none => none

/-- Whether a relative path names an existing entry of the tree. -/
def isPathF (cs : Forest) (p : FPath) : Bool :=
  (nodeAt (.dir cs) p).isSome

/-- Whether a tree node is a directory. -/
def isdirT : FsTree → Bool
  | .file => false
  | .dir _ => true

mutual

/-- Well-formedness of a tree as an on-disk object: the names inside any
one directory are pairwise distinct (as `os.listdir` guarantees). -/
def FsTree.wf : FsTree → Bool
  | .file => true
  | .dir cs => wfForest cs

/-- Well-formedness of a directory content, see `FsTree.wf`. -/
def wfForest : Forest → Bool
  | [] => true
  | (n, t) :: rest => (childNamed rest n).isNone && FsTree.wf t && wfForest rest

end

mutual

/-- `listd` from repobo.py (lines 216-222): append the current prefix when
it is nonempty, then recurse into the children in listing order; the
accumulated list is returned.  The Python default argument `ll=[]` is a
single shared mutable list; the explicit `ll` parameter models the state
of whichever list the call operates on. -/
def listd : FsTree → FPath → List FPath → List FPath
  | .file, pre, ll => if pre = [] then ll else ll ++ [pre]
  | .dir cs, pre, ll => listdF cs pre (if pre = [] then ll else ll ++ [pre])

/-- The `for i in os.listdir(...)` loop of `listd`. -/
def listdF : Forest → FPath → List FPath → List FPath
  | [], _, ll => ll
  | (n, c) :: rest, pre, ll => listdF rest pre (listd c (pre ++ [n]) ll)

end

/-- Python set membership used for modelling `set(...)` values. -/
def pyMem (x : FPath) (l : List FPath) : Bool :=
  decide (x ∈ l)

/-- Python `set(a) == set(b)` on the name lists the source builds. -/
def pySetEq (a b : List FPath) : Bool :=
  a.all (fun x => pyMem x b) && b.all (fun x => pyMem x a)

/-- Python `set(a).issubset(set(b))`. -/
def pySubsetB (a b : List FPath) : Bool :=
  a.all (fun x => pyMem x b)

/-- Python `set(a).difference(set(b))`, listed in first-list order; only
its membership matters to the source. -/
def pyDiff (a b : List FPath) : List FPath :=
  a.filter (fun x => !pyMem x b)

/-- Stable insertion used by `pySort`. -/
def insLe {α : Type} (le : α → α → Bool) (x : α) : List α → List α
  | [] => [x]
  | y :: ys => if le x y then x :: y :: ys else y :: insLe le x ys

/-- Python's stable `sorted` / `list.sort()`: any stable sort computes the
same list, here realised as insertion sort. -/
def pySort {α : Type} (le : α → α → Bool) (l : List α) : List α :=
  l.foldr (insLe le) []

/-- The kind of an archive: `.blobs` (full) or `.deltablobs`
(incremental). -/
inductive Kind where
  | full : Kind
  | delta : Kind
deriving DecidableEq, Repr

/-- One tar member: its stored relative name and whether the tar entry is
a directory entry (`tarfile` records the entry type and `extractall` uses
it, while `getnames` reports only the names). -/
structure Member where
  path : FPath
  isdir : Bool
deriving DecidableEq, Repr

/-- An archive file in the repository: `STAMP.blobs` or
`STAMP.deltablobs`, holding its tar members.  Only names matching
`is_data_file` reach `find_files`/`delete_old_backups`, so the repository
is modelled as the list of its matching archives. -/
structure Archive where
  stamp : Nat
  kind : Kind
  members : List Member
deriving DecidableEq, Repr

/-- Sort key realising lexicographic filename order: stamp first, and at
equal stamps `.blobs` sorts before `.deltablobs`. -/
def Archive.akey (a : Archive) : Nat :=
  2 * a.stamp + (match a.kind with | .full => 0 | .delta => 1)

/-- Filename order used by `all.sort()` in `find_files` and
`delete_old_backups`. -/
def fnameLe (a b : Archive) : Bool :=
  a.akey ≤ b.akey

/-- The scan of `find_files` (repobo.py lines 244-249) over the
newest-first listing: skip names newer than `when`; collect the rest and
stop right after collecting a `.blobs` (full) archive. -/
def scanNeeded (when : Nat) : List Archive → List Archive
  | [] => []
  | f :: rest =>
      if f.stamp ≤ when then
        f :: (if f.kind = .full then [] else scanNeeded when rest)
      else scanNeeded when rest

/-- `find_files` from repobo.py (lines 233-260): sort the repository
listing, reverse to newest first, scan, and reverse the collected list
back to chronological order. -/
def find_files (repo : List Archive) (when : Nat) : List Archive :=
  (scanNeeded when ((pySort fnameLe repo).reverse)).reverse

/-- `x.getnames()` of one archive. -/
def getnames (a : Archive) : List FPath :=
  a.members.map (fun m => m.path)

/-- `concat` from repobo.py (lines 192-202): the member names of all the
chain's archives, one list (the source wraps it in `set`, modelled by
membership). -/
def concat (files : List Archive) : List FPath :=
  files.flatMap getnames

mutual

/-- The tar members produced by `tarfile.add(path, arcname)` with its
default `recursive=True`: the entry itself, then every descendant. -/
def tarAddTree : FsTree → FPath → List Member
  | .file, pre => [⟨pre, false⟩]
  | .dir cs, pre => ⟨pre, true⟩ :: tarAddForest cs pre

/-- Recursive `tarfile.add` over the children of a directory. -/
def tarAddForest : Forest → FPath → List Member
  | [], _ => []
  | (n, c) :: rest, pre => tarAddTree c (pre ++ [n]) ++ tarAddForest rest pre

end

/-- `fs.add(os.path.join(options.blob, item), item)` for one `item` of the
incremental delta: the members of the subtree rooted at `item`.
`tarfile.add` raises on a missing path; the call sites only pass paths of
the live tree, where the lookup always succeeds. -/
def addPath (src : Forest) (p : FPath) : List Member :=
  match nodeAt (.dir src) p with
  | some t => tarAddTree t p
  | none => []

/-- The backup writers raise `WouldOverwriteFiles` when the destination
filename already exists. -/
inductive BackupError where
  | wouldOverwriteFiles : BackupError
deriving DecidableEq, Repr

/-- `os.path.exists(dest)` for a generated archive filename: the
repository already holds an archive with this stamp and extension. -/
def existsName (repo : List Archive) (stamp : Nat) (kind : Kind) : Bool :=
  repo.any (fun a => a.stamp == stamp && decide (a.kind = kind))

/-- `delete_old_backups` from repobo.py (lines 263-286): sort the data
files, keep the most recent full backup, unlink every other data file. -/
def delete_old_backups (repo : List Archive) : List Archive :=
  let all := pySort fnameLe repo
  match (all.filter (fun a => decide (a.kind = .full))).getLast? with
  | none => repo
  | some recentfull => repo.filter (fun a => decide (a = recentfull))

/-- `do_full_backup` from repobo.py (lines 289-300): refuse to overwrite
an existing destination, write a tar of every top-level entry of the blob
directory (each added recursively), then honour `--kill-old-on-full`. -/
def do_full_backup (repo : List Archive) (src : Forest) (now : Nat)
    (killold : Bool) : Except BackupError (List Archive) :=
  if existsName repo now .full then .error .wouldOverwriteFiles
  else
    let repo' := repo ++ [⟨now, .full, tarAddForest src []⟩]
    .ok (if killold then delete_old_backups repo' else repo')

/-- `do_incremental_backup` from repobo.py (lines 303-311): refuse to
overwrite, then write a tar holding each delta item (added
recursively). -/
def do_incremental_backup (repo : List Archive) (src : Forest) (now : Nat)
    (delta : List FPath) : Except BackupError (List Archive) :=
  if existsName repo now .delta then .error .wouldOverwriteFiles
  else .ok (repo ++ [⟨now, .delta, delta.flatMap (addPath src)⟩])

/-- `do_backup` from repobo.py (lines 314-334): full backup when forced or
when the chain is empty; otherwise compare the live tree with the chain's
member names: no-op on equality, full backup when the archived names are
not a subset of the live tree, else an incremental backup of the
difference. -/
def do_backup (repo : List Archive) (src : Forest) (force killold : Bool)
    (now : Nat) : Except BackupError (List Archive) :=
  let repofiles := find_files repo now
  if force || decide (repofiles = []) then do_full_backup repo src now killold
  else
    let blobfiles := listd (.dir src) [] []
    let backupfiles := concat repofiles
    if pySetEq backupfiles blobfiles then .ok repo
    else if !pySubsetB backupfiles blobfiles then
      do_full_backup repo src now killold
    else do_incremental_backup repo src now (pyDiff blobfiles backupfiles)

/-- Errors surfaced by `do_recover`: `NoFiles` from repobo.py, and the
`OSError` variants raised by `tarfile.extractall` / `os.remove`. -/
inductive RecoverError where
  | noFiles : RecoverError
  | notADirectoryError : RecoverError
  | isADirectoryError : RecoverError
  | fileNotFoundError : RecoverError
deriving DecidableEq, Repr

/-- Replace the tree bound to name `n` (the name is present). -/
def updateChild : Forest → String → FsTree → Forest
  | [], _, _ => []
  | (m, t) :: rest, n, t' =>
      if m = n then (m, t') :: rest else (m, t) :: updateChild rest n t'

/-- Remove the binding of name `n`. -/
def eraseChild : Forest → String → Forest
  | [], _ => []
  | (m, t) :: rest, n => if m = n then rest else (m, t) :: eraseChild rest n

/-- Extraction of one tar member by `tarfile.extractall` into the
destination: missing upper directories are created; a directory entry
whose name already exists is left in place (`tarfile` ignores `EEXIST` on
`mkdir`); a file entry overwrites an existing file's bytes, raises
`IsADirectoryError` when a directory of that name exists, and raises
`NotADirectoryError` when a file blocks the directory walk. -/
def extractOne : Forest → FPath → Bool → Except RecoverError Forest
  | cs, [], _ => .ok cs
  | cs, [n], isdir =>
      match childNamed cs n with
      | none => .ok (cs ++ [(n, if isdir then .dir [] else .file)])
      | some .file => if isdir then .ok cs else .ok cs
      | some (.dir _) => if isdir then .ok cs else .error .isADirectoryError
  | cs, n :: m :: rest, isdir =>
      match childNamed cs n with
      | none => do
          let sub ← extractOne [] (m :: rest) isdir
          .ok (cs ++ [(n, .dir sub)])
      | some (.dir sub) => do
          let sub' ← extractOne sub (m :: rest) isdir
          .ok (updateChild cs n (.dir sub'))
      | some .file => .error .notADirectoryError

/-- `f.extractall(options.output)`: extract the members in stored
order. -/
def extractMembers (cs : Forest) : List Member → Except RecoverError Forest
  | [] => .ok cs
  | m :: ms => do extractMembers (← extractOne cs m.path m.isdir) ms

/-- The extraction loop of `do_recover` (lines 351-356) over the chain's
archives in chronological order. -/
def extractArchives (cs : Forest) : List Archive → Except RecoverError Forest
  | [] => .ok cs
  | a :: rest => do extractArchives (← extractMembers cs a.members) rest

/-- `os.remove(os.path.join(options.output, blob))`: removes a file;
raises `IsADirectoryError` on a directory, `FileNotFoundError` on a
missing path. -/
def removeOne : Forest → FPath → Except RecoverError Forest
  | _, [] => .error .fileNotFoundError
  | cs, [n] =>
      match childNamed cs n with
      | none => .error .fileNotFoundError
      | some .file => .ok (eraseChild cs n)
      | some (.dir _) => .error .isADirectoryError
  | cs, n :: m :: rest =>
      match childNamed cs n with
      | none => .error .fileNotFoundError
      | some .file => .error .notADirectoryError
      | some (.dir sub) => do
          let sub' ← removeOne sub (m :: rest)
          .ok (updateChild cs n (.dir sub'))

/-- The `for blob in oldblobs: os.remove(...)` loop of `do_recover`. -/
def removeAll (cs : Forest) : List FPath → Except RecoverError Forest
  | [] => .ok cs
  | p :: ps => do removeAll (← removeOne cs p) ps

/-- `do_recover` from repobo.py (lines 337-359): resolve the chain for the
requested date (default: now) and fail with `NoFiles` on an empty chain;
without `--output` log and return; otherwise snapshot the destination,
extract every chain archive in order, and remove each pre-existing entry
that no extracted member named. -/
def do_recover (repo : List Archive) (output : Option Forest)
    (date : Option Nat) (now : Nat) : Except RecoverError (Option Forest) :=
  let when := date.getD now
  let repofiles := find_files repo when
  if decide (repofiles = []) then .error .noFiles
  else
    match output with
    | none => .ok none
    | some dest =>
        let blobfiles := listd (.dir dest) [] []
        do
          let dest' ← extractArchives dest repofiles
          let backupfiles := concat repofiles
          let oldblobs := pyDiff blobfiles backupfiles
          let dest'' ← removeAll dest' oldblobs
          .ok (some dest'')

/-- A file of the backup directory as `cleanup` sees it: its name and its
filesystem modification time (`os.path.getmtime`). -/
structure RFile where
  name : String
  mtime : Nat
deriving DecidableEq, Repr

/-- Python `name.endswith('.blobs')`, the full-backup test of `cleanup`
(repoborunner.py line 289). -/
def endsWithBlobs (s : String) : Bool :=
  ".blobs".data.isSuffixOf s.data

/-- Modification-time order used by `sorted(fullbackups,
key=itemgetter(1))`; `pySort` keeps the stable tie behaviour. -/
def mtimeLe (a b : RFile) : Bool :=
  a.mtime ≤ b.mtime

/-- `cleanup` from repoborunner.py (lines 271-328): with `keep == 0` do
nothing; otherwise sort the `.blobs` files by modification time, and when
there are more than `keep` of them, delete every file of the directory
(whatever its name) whose modification time is strictly before that of
the oldest full backup to keep. -/
def cleanup (files : List RFile) (keep : Nat) : List RFile :=
  if keep = 0 then files
  else
    let fullbackups := files.filter (fun f => endsWithBlobs f.name)
    let sortedFulls := pySort mtimeLe fullbackups
    if sortedFulls.length > keep then
      let newestFirst := sortedFulls.reverse
      let last_date_to_keep := (newestFirst.getD (keep - 1) ⟨"", 0⟩).mtime
      files.filter (fun f => !decide (f.mtime < last_date_to_keep))
    else files

/-- Check that a list of characters are all digits. -/
def allDigits (l : List Char) : Bool :=
  l.all (fun c => c.isDigit)

/-- `is_data_file` from repobo.py (lines 229-231): the name matches
`\d{4}(-\d\d){5}\.(delta)?blobs` anchored at both ends. -/
def is_data_file (s : String) : Bool :=
  match s.data with
  | y1 :: y2 :: y3 :: y4 :: d1 :: mo1 :: mo2 :: d2 :: da1 :: da2 :: d3 ::
      h1 :: h2 :: d4 :: mi1 :: mi2 :: d5 :: s1 :: s2 :: rest =>
      allDigits [y1, y2, y3, y4, mo1, mo2, da1, da2, h1, h2, mi1, mi2, s1, s2]
        && ([d1, d2, d3, d4, d5].all (fun c => c = '-'))
        && (rest = ".blobs".data || rest = ".deltablobs".data)
  | _ => false

end Repobo

namespace Repobo

/-! ### Helper lemmas -/

theorem pySubsetB_iff (a b : List FPath) :
    pySubsetB a b = true ↔ ∀ x ∈ a, x ∈ b := by
  simp [pySubsetB, pyMem]

theorem pySetEq_iff (a b : List FPath) :
    pySetEq a b = true ↔ ∀ x, (x ∈ a ↔ x ∈ b) := by
  simp only [pySetEq, Bool.and_eq_true, pySubsetB_iff, List.all_eq_true,
    pyMem, decide_eq_true_eq]
  constructor
  · rintro ⟨h1, h2⟩ x
    exact ⟨fun hx => h1 x hx, fun hx => h2 x hx⟩
  · intro h
    exact ⟨fun x hx => (h x).1 hx, fun x hx => (h x).2 hx⟩

theorem mem_pyDiff (a b : List FPath) (x : FPath) :
    x ∈ pyDiff a b ↔ x ∈ a ∧ x ∉ b := by
  simp [pyDiff, List.mem_filter, pyMem]

/-! ### Claim theorems -/

/-- C10: the Tree Snapshot function `listd` reuses its Python default
list argument `ll=[]` as an accumulator shared across calls: the default
list object is allocated once, so a call that omits `ll` starts from the
list state left behind by the previous such call.  For this concrete
one-file tree, the second omitted-accumulator call returns the first
call's entries followed by its own, so it differs from the first call's
result: `listd` with the default accumulator is not a deterministic
function of its base-path input across runs. -/
theorem listd_default_accumulator_reuse :
    listd (.dir [("a", FsTree.file)]) []
        (listd (.dir [("a", FsTree.file)]) [] [])
      ≠ listd (.dir [("a", FsTree.file)]) [] []
    ∧ listd (.dir [("a", FsTree.file)]) []
        (listd (.dir [("a", FsTree.file)]) [] [])
      = listd (.dir [("a", FsTree.file)]) [] []
        ++ listd (.dir [("a", FsTree.file)]) [] [] := by
  decide

/-- C5: when the generated destination archive filename already exists in
the repository, `do_full_backup` and `do_incremental_backup` fail with
`WouldOverwriteFiles`, and the repository is unchanged: the existence
check precedes `tarfile.open`, so the error path creates, modifies and
deletes nothing (the model's error result carries no new repository
state). -/
theorem backup_would_overwrite_guard (repo : List Archive) (src : Forest)
    (now : Nat) (killold : Bool) (delta : List FPath) :
    (existsName repo now .full = true →
      do_full_backup repo src now killold = .error .wouldOverwriteFiles)
    ∧ (existsName repo now .delta = true →
      do_incremental_backup repo src now delta
        = .error .wouldOverwriteFiles) := by
  constructor <;> intro h
  · simp [do_full_backup, h]
  · simp [do_incremental_backup, h]

theorem backup_would_overwrite_guard_witness :
    (existsName [⟨5, .full, []⟩] 5 .full = true
      ∧ do_full_backup [⟨5, .full, []⟩] [] 5 false
          = .error .wouldOverwriteFiles)
    ∧ (existsName [⟨6, .delta, []⟩] 6 .delta = true
      ∧ do_incremental_backup [⟨6, .delta, []⟩] [] 6 []
          = .error .wouldOverwriteFiles) :=
  ⟨⟨by decide,
    (backup_would_overwrite_guard [⟨5, .full, []⟩] [] 5 false []).1
      (by decide)⟩,
   ⟨by decide,
    (backup_would_overwrite_guard [⟨6, .delta, []⟩] [] 6 false []).2
      (by decide)⟩⟩

/-- C8 counterexample: on an empty repository, restore without a
destination path does not complete as a no-op: `do_recover` checks the
resolved chain first (repobo.py lines 339-344) and raises `NoFiles`
before it ever looks at the missing output option. -/
theorem recover_no_output_empty_repo_raises :
    do_recover [] none none 0 = .error .noFiles := by
  decide

/-- C8 (amended): when the resolved chain for the requested date is
non-empty, invoking restore without a destination path completes as a
no-op with a warning, raising no error and modifying nothing; with an
empty chain (for example an empty repository) `do_recover` instead raises
`NoFiles` even though no destination was given, because the chain check
precedes the output check. -/
theorem recover_without_output_noop (repo : List Archive)
    (date : Option Nat) (now : Nat)
    (h : find_files repo (date.getD now) ≠ []) :
    do_recover repo none date now = .ok none := by
  simp [do_recover, h]

theorem recover_without_output_noop_witness :
    find_files [⟨0, .full, []⟩] 0 ≠ []
    ∧ do_recover [⟨0, .full, []⟩] none none 0 = .ok none :=
  ⟨by decide,
   recover_without_output_noop [⟨0, .full, []⟩] none 0 (by decide)⟩

/-- C6: the restorer does not survive a stale directory entry.  With the
chain `[full@1 {a}]` and a destination holding one empty directory `d`,
the pre-restore snapshot is `{d}`, the extracted member set is `{a}`, so
the stale set is `{d}`; `do_recover` then calls `os.remove` on `d`,
which raises `IsADirectoryError`: the restore aborts instead of deleting
the stale entry and completing (spec section 4.7 says every stale entry
is deleted). -/
theorem recover_stale_directory_raises :
    do_recover [⟨1, .full, [⟨["a"], false⟩]⟩] (some [("d", .dir [])]) none 1
      = .error .isADirectoryError := by
  decide

end Repobo

namespace Repobo

/-! ### Chain resolver: shape of the resolved chain -/

theorem scanNeeded_stamp_le (when : Nat) :
    ∀ l, ∀ a ∈ scanNeeded when l, a.stamp ≤ when
  | [] => by simp [scanNeeded]
  | f :: rest => by
      intro a ha
      rw [scanNeeded] at ha
      by_cases h : f.stamp ≤ when
      · rw [if_pos h] at ha
        rcases List.mem_cons.mp ha with rfl | ha'
        · exact h
        · by_cases hk : f.kind = .full
          · rw [if_pos hk] at ha'
            simp at ha'
          · rw [if_neg hk] at ha'
            exact scanNeeded_stamp_le when rest a ha'
      · rw [if_neg h] at ha
        exact scanNeeded_stamp_le when rest a ha

theorem scanNeeded_dropLast_delta (when : Nat) :
    ∀ l, ∀ a ∈ (scanNeeded when l).dropLast, a.kind = .delta
  | [] => by simp [scanNeeded]
  | f :: rest => by
      intro a ha
      rw [scanNeeded] at ha
      by_cases h : f.stamp ≤ when
      · rw [if_pos h] at ha
        by_cases hk : f.kind = .full
        · rw [if_pos hk] at ha
          simp [List.dropLast] at ha
        · rw [if_neg hk] at ha
          rcases hs : scanNeeded when rest with _ | ⟨b, bs⟩
          · rw [hs] at ha
            simp [List.dropLast] at ha
          · rw [hs, List.dropLast_cons₂] at ha
            rcases List.mem_cons.mp ha with rfl | ha'
            · cases hak : a.kind
              · exact absurd hak hk
              · rfl
            · have := scanNeeded_dropLast_delta when rest a
              rw [hs] at this
              exact this ha'
      · rw [if_neg h] at ha
        exact scanNeeded_dropLast_delta when rest a ha

theorem mem_find_files (repo : List Archive) (when : Nat) (a : Archive) :
    a ∈ find_files repo when ↔ a ∈ scanNeeded when ((pySort fnameLe repo).reverse) := by
  simp [find_files]

end Repobo

namespace Repobo

/-- C3 counterexample: for the repository directory holding only the
incremental archive `delta@1` and target time `1`, the resolved chain is
non-empty but its first element is an Incremental, and the chain contains
no Full archive at all (so not exactly one). -/
theorem chain_without_full_counterexample :
    find_files [⟨1, .delta, []⟩] 1 = [⟨1, .delta, []⟩]
    ∧ (⟨1, .delta, []⟩ : Archive).kind ≠ .full
    ∧ (find_files [⟨1, .delta, []⟩] 1).countP
        (fun a => decide (a.kind = .full)) = 0 := by
  decide

/-- C3 (amended): for every repository directory and target time, every
element of the resolved chain has timestamp at most the target time, the
chain contains at most one Full archive, and every element after the
first is an Incremental (hence any Full archive it contains is the first
element).  The chain need not contain a Full archive: the scan includes
it only when one exists at or before the target time. -/
theorem chain_shape (repo : List Archive) (when : Nat) :
    (∀ a ∈ find_files repo when, a.stamp ≤ when)
    ∧ (find_files repo when).countP (fun a => decide (a.kind = .full)) ≤ 1
    ∧ (∀ x rest, find_files repo when = x :: rest →
        ∀ a ∈ rest, a.kind = .delta) := by
  have hdrop : ∀ x rest, find_files repo when = x :: rest →
      ∀ a ∈ rest, a.kind = .delta := by
    intro x rest hc a ha
    have hscan : scanNeeded when ((pySort fnameLe repo).reverse)
        = rest.reverse ++ [x] := by
      have := congrArg List.reverse hc
      simpa [find_files] using this
    have : a ∈ (scanNeeded when ((pySort fnameLe repo).reverse)).dropLast := by
      rw [hscan, List.dropLast_concat]
      simpa using ha
    exact scanNeeded_dropLast_delta when _ a this
  refine ⟨?_, ?_, hdrop⟩
  · intro a ha
    exact scanNeeded_stamp_le when _ a ((mem_find_files repo when a).mp ha)
  · rcases hc : find_files repo when with _ | ⟨x, rest⟩
    · simp
    · have hrest : ∀ a ∈ rest, a.kind = .delta := hdrop x rest hc
      rw [List.countP_cons]
      have hz : rest.countP (fun a => decide (a.kind = .full)) = 0 := by
        rw [List.countP_eq_zero]
        intro a ha
        simp [hrest a ha]
      rw [hz]
      by_cases hx : x.kind = .full <;> simp [hx]

end Repobo

namespace Repobo

/-! ### Stable sort lemmas -/

theorem insLe_perm {α : Type} (le : α → α → Bool) (x : α) :
    ∀ l : List α, (insLe le x l).Perm (x :: l)
  | [] => .refl _
  | y :: ys => by
      rw [insLe]
      by_cases h : le x y
      · rw [if_pos h]
      · rw [if_neg h]
        exact ((insLe_perm le x ys).cons y).trans (List.Perm.swap x y ys)

theorem pySort_perm {α : Type} (le : α → α → Bool) (l : List α) :
    (pySort le l).Perm l := by
  induction l with
  | nil => exact .refl _
  | cons x xs ih =>
      exact (insLe_perm le x (pySort le xs)).trans (ih.cons x)

theorem insLe_sorted {α : Type} {le : α → α → Bool}
    (htrans : ∀ a b c, le a b = true → le b c = true → le a c = true)
    (htot : ∀ a b, le a b = false → le b a = true) (x : α) :
    ∀ l, l.Pairwise (fun a b => le a b = true) →
      (insLe le x l).Pairwise (fun a b => le a b = true)
  | [], _ => by simp [insLe]
  | y :: ys, hp => by
      rw [insLe]
      rcases List.pairwise_cons.mp hp with ⟨hy, hys⟩
      by_cases h : le x y
      · rw [if_pos h]
        refine List.pairwise_cons.mpr ⟨?_, hp⟩
        intro b hb
        rcases List.mem_cons.mp hb with rfl | hb'
        · exact h
        · exact htrans x y b h (hy b hb')
      · rw [if_neg h]
        refine List.pairwise_cons.mpr ⟨?_, insLe_sorted htrans htot x ys hys⟩
        intro b hb
        rcases List.mem_cons.mp ((insLe_perm le x ys).mem_iff.mp hb) with hbx | hb'
        · subst hbx
          exact htot _ _ (by simpa using h)
        · exact hy b hb'

theorem pySort_sorted {α : Type} {le : α → α → Bool}
    (htrans : ∀ a b c, le a b = true → le b c = true → le a c = true)
    (htot : ∀ a b, le a b = false → le b a = true) (l : List α) :
    (pySort le l).Pairwise (fun a b => le a b = true) := by
  induction l with
  | nil => simp [pySort]
  | cons x xs ih => exact insLe_sorted htrans htot x (pySort le xs) ih

theorem mtimeLe_trans (a b c : RFile) :
    mtimeLe a b = true → mtimeLe b c = true → mtimeLe a c = true := by
  simp only [mtimeLe, decide_eq_true_eq]
  omega

theorem mtimeLe_tot (a b : RFile) :
    mtimeLe a b = false → mtimeLe b a = true := by
  simp only [mtimeLe, decide_eq_false_iff_not, decide_eq_true_eq]
  omega

theorem fnameLe_trans (a b c : Archive) :
    fnameLe a b = true → fnameLe b c = true → fnameLe a c = true := by
  simp only [fnameLe, decide_eq_true_eq]
  omega

theorem fnameLe_tot (a b : Archive) :
    fnameLe a b = false → fnameLe b a = true := by
  simp only [fnameLe, decide_eq_false_iff_not, decide_eq_true_eq]
  omega

/-! ### Retention lemmas -/

theorem getD_mem_of_lt {l : List RFile} {k : Nat} (hk : k < l.length) :
    l.getD k ⟨"", 0⟩ ∈ l := by
  rw [List.getD_eq_getElem?_getD, List.getElem?_eq_getElem hk]
  exact List.getElem_mem hk

theorem filter_ge_getD_length :
    ∀ (l : List RFile), l.Pairwise (fun a b => b.mtime < a.mtime) →
    ∀ k, k < l.length →
      (l.filter
        (fun f => !decide (f.mtime < (l.getD k ⟨"", 0⟩).mtime))).length
        = k + 1
  | [], _, k, hk => by simp at hk
  | x :: xs, hp, 0, _ => by
      rcases List.pairwise_cons.mp hp with ⟨hx, hxs⟩
      have hcut : (x :: xs).getD 0 ⟨"", 0⟩ = x := rfl
      rw [hcut]
      rw [List.filter_cons_of_pos (by simp)]
      have : xs.filter (fun f => !decide (f.mtime < x.mtime)) = [] := by
        rw [List.filter_eq_nil_iff]
        intro y hy
        simp [hx y hy]
      simp [this]
  | x :: xs, hp, k + 1, hk => by
      rcases List.pairwise_cons.mp hp with ⟨hx, hxs⟩
      have hklt : k < xs.length := by
        simpa using hk
      have hcut : (x :: xs).getD (k + 1) ⟨"", 0⟩ = xs.getD k ⟨"", 0⟩ := rfl
      rw [hcut]
      have hmem : xs.getD k ⟨"", 0⟩ ∈ xs := getD_mem_of_lt hklt
      rw [List.filter_cons_of_pos (by
        have hlt := hx _ hmem
        simp only [Bool.not_eq_true', decide_eq_false_iff_not,
          List.getD_eq_getElem?_getD] at hlt ⊢
        omega)]
      rw [List.length_cons, filter_ge_getD_length xs hxs k hklt]

end Repobo

namespace Repobo

theorem cleanup_deletion_branch (files : List RFile) (keep : Nat)
    (hk : ¬ keep = 0)
    (hgt : keep <
      (pySort mtimeLe (files.filter (fun f => endsWithBlobs f.name))).length) :
    cleanup files keep = files.filter (fun f =>
      !decide (f.mtime <
        ((pySort mtimeLe
            (files.filter (fun f => endsWithBlobs f.name))).reverse.getD
          (keep - 1) ⟨"", 0⟩).mtime)) := by
  simp only [cleanup, if_neg hk, if_pos hgt]

theorem cleanup_noop_branch (files : List RFile) (keep : Nat)
    (hk : ¬ keep = 0)
    (hle : (pySort mtimeLe
      (files.filter (fun f => endsWithBlobs f.name))).length ≤ keep) :
    cleanup files keep = files := by
  simp only [cleanup, if_neg hk, if_neg (Nat.not_lt.mpr hle)]

end Repobo

namespace Repobo

/-- C4 counterexample: with one Incremental older than the only Full
archive and `keep = 1`, `cleanup` takes its no-deletion branch, so the
Incremental survives although its modification time is strictly before
that of the oldest (indeed only) retained Full archive, contradicting
"every surviving archive has modification time at or after the
modification time of the oldest retained Full archive". -/
theorem cleanup_survivor_older_counterexample :
    cleanup [⟨"a.deltablobs", 0⟩, ⟨"b.blobs", 1⟩] 1
      = [⟨"a.deltablobs", 0⟩, ⟨"b.blobs", 1⟩]
    ∧ (⟨"a.deltablobs", 0⟩ : RFile).mtime < (⟨"b.blobs", 1⟩ : RFile).mtime
    ∧ endsWithBlobs "a.deltablobs" = false
    ∧ endsWithBlobs "b.blobs" = true := by
  decide

/-- C4 (amended): `cleanup(R, keep=0)` deletes nothing, and for
`keep ≥ 1`, when the number of Full archives (names ending in `.blobs`)
is at most `keep`, nothing at all is deleted — both unconditionally, for
every repository — so the Full count stays `min(keep, count)`, but a
surviving Incremental may be older than the oldest Full archive.  When
the Full count exceeds `keep` and additionally the Full archives'
modification times are pairwise distinct, exactly
`keep = min(keep, count)` Full archives remain, and there is a retained
Full archive (the cutoff) whose modification time bounds every surviving
file from below. -/
theorem cleanup_retention_bound (files : List RFile) (keep : Nat) :
    cleanup files 0 = files
    ∧ (keep ≠ 0 →
        (files.filter (fun f => endsWithBlobs f.name)).length ≤ keep →
        cleanup files keep = files)
    ∧ (keep ≠ 0 →
        keep < (files.filter (fun f => endsWithBlobs f.name)).length →
        (files.filter (fun f => endsWithBlobs f.name)).Pairwise
          (fun a b => a.mtime ≠ b.mtime) →
        ((cleanup files keep).filter
            (fun f => endsWithBlobs f.name)).length = keep
        ∧ ∃ g ∈ cleanup files keep, endsWithBlobs g.name = true
            ∧ ∀ f ∈ cleanup files keep, g.mtime ≤ f.mtime) := by
  have hsortlen : (pySort mtimeLe
      (files.filter (fun f => endsWithBlobs f.name))).length
      = (files.filter (fun f => endsWithBlobs f.name)).length :=
    (pySort_perm _ _).length_eq
  refine ⟨by simp [cleanup], ?_, ?_⟩
  · intro hk hle
    exact cleanup_noop_branch files keep hk (hsortlen ▸ hle)
  · intro hk hgt hdist
    set fulls := files.filter (fun f => endsWithBlobs f.name) with hfulls
    set sortd := pySort mtimeLe fulls with hsortd
    set r := sortd.reverse with hr
    have hperm : sortd.Perm fulls := pySort_perm _ _
    have hrperm : r.Perm fulls := (sortd.reverse_perm).trans hperm
    have hrlen : r.length = fulls.length := by
      rw [List.length_reverse]
      exact hsortlen
    have hklt : keep - 1 < r.length := by
      rw [hrlen]
      omega
    have hstrict : r.Pairwise (fun a b => b.mtime < a.mtime) := by
      have hs1 : sortd.Pairwise (fun a b => mtimeLe a b = true) :=
        pySort_sorted mtimeLe_trans mtimeLe_tot fulls
      have hs2 : sortd.Pairwise (fun a b => a.mtime ≠ b.mtime) :=
        (hperm.pairwise_iff (by intro x y h; exact h.symm)).mpr hdist
      have hs3 : sortd.Pairwise (fun a b => a.mtime < b.mtime) := by
        refine (hs1.and hs2).imp ?_
        intro a b hab
        rcases hab with ⟨h1, h2⟩
        simp only [mtimeLe, decide_eq_true_eq] at h1
        omega
      exact List.pairwise_reverse.mpr hs3
    have hbranch := cleanup_deletion_branch files keep hk
      (by rw [hsortlen]; exact hgt)
    set cutoff := r.getD (keep - 1) ⟨"", 0⟩ with hcutoff
    have hcutmem : cutoff ∈ r := getD_mem_of_lt hklt
    have hcount := filter_ge_getD_length r hstrict (keep - 1) hklt
    have hkeep1 : keep - 1 + 1 = keep := by omega
    constructor
    · rw [hbranch]
      rw [List.filter_filter]
      have hcomm : files.filter (fun a =>
          endsWithBlobs a.name && !decide (a.mtime < cutoff.mtime))
          = fulls.filter (fun a => !decide (a.mtime < cutoff.mtime)) := by
        rw [hfulls, List.filter_filter]
        apply List.filter_congr
        intro a _
        rw [Bool.and_comm]
      rw [hcomm]
      have hpermf : (fulls.filter
            (fun a => !decide (a.mtime < cutoff.mtime))).Perm
          (r.filter (fun a => !decide (a.mtime < cutoff.mtime))) :=
        (hrperm.filter _).symm
      rw [hpermf.length_eq, hcount, hkeep1]
    · refine ⟨cutoff, ?_, ?_, ?_⟩
      · rw [hbranch, List.mem_filter]
        have : cutoff ∈ fulls := hrperm.subset hcutmem
        refine ⟨List.mem_of_mem_filter this, by simp⟩
      · have : cutoff ∈ fulls := hrperm.subset hcutmem
        exact (List.mem_filter.mp this).2
      · intro f hfmem
        rw [hbranch, List.mem_filter] at hfmem
        rcases hfmem with ⟨-, hpred⟩
        simp only [Bool.not_eq_true', decide_eq_false_iff_not] at hpred
        omega

theorem cleanup_retention_bound_witness :
    List.Pairwise (fun a b => a.mtime ≠ b.mtime)
      (([⟨"d.deltablobs", 5⟩, ⟨"a.blobs", 10⟩,
        ⟨"b.blobs", 20⟩] : List RFile).filter
          (fun f => endsWithBlobs f.name))
    ∧ (((cleanup [⟨"d.deltablobs", 5⟩, ⟨"a.blobs", 10⟩, ⟨"b.blobs", 20⟩]
          1).filter (fun f => endsWithBlobs f.name)).length = 1
        ∧ ∃ g ∈ cleanup [⟨"d.deltablobs", 5⟩, ⟨"a.blobs", 10⟩,
            ⟨"b.blobs", 20⟩] 1, endsWithBlobs g.name = true
            ∧ ∀ f ∈ cleanup [⟨"d.deltablobs", 5⟩, ⟨"a.blobs", 10⟩,
                ⟨"b.blobs", 20⟩] 1, g.mtime ≤ f.mtime) :=
  ⟨by decide,
   ((cleanup_retention_bound
      [⟨"d.deltablobs", 5⟩, ⟨"a.blobs", 10⟩, ⟨"b.blobs", 20⟩] 1).2.2
      (by decide) (by decide) (by decide))⟩

end Repobo

namespace Repobo

/-- C7 counterexample: `x.dat` does not match the archive naming
predicate `is_data_file`, yet `cleanup` with `keep = 1` deletes it (and
the doctest of repoborunner.py lines 219-230 documents exactly this
".dat files are deleted too" behaviour): the deletion loop removes every
file older than the cutoff regardless of its name. -/
theorem cleanup_deletes_nonmatching_counterexample :
    is_data_file "x.dat" = false
    ∧ (⟨"x.dat", 0⟩ : RFile)
        ∈ ([⟨"x.dat", 0⟩, ⟨"a.blobs", 1⟩, ⟨"b.blobs", 2⟩] : List RFile)
    ∧ cleanup [⟨"x.dat", 0⟩, ⟨"a.blobs", 1⟩, ⟨"b.blobs", 2⟩] 1
        = [⟨"b.blobs", 2⟩] := by
  decide

/-- C7 (amended): `cleanup`'s deletion is governed solely by modification
time, not by the archive naming predicate.  A file whose name does not
match `is_data_file` survives exactly when no deletion pass runs
(`keep = 0` or at most `keep` full backups) or its modification time is
at or after the cutoff; in particular a non-matching file older than the
cutoff is deleted. -/
theorem cleanup_nonmatching_by_mtime (files : List RFile) (keep : Nat)
    (f : RFile) (hf : f ∈ files) (hname : is_data_file f.name = false) :
    (keep = 0 → f ∈ cleanup files keep)
    ∧ (keep ≠ 0 →
        (pySort mtimeLe
          (files.filter (fun g => endsWithBlobs g.name))).length ≤ keep →
        f ∈ cleanup files keep)
    ∧ (keep ≠ 0 →
        keep < (pySort mtimeLe
          (files.filter (fun g => endsWithBlobs g.name))).length →
        (f ∈ cleanup files keep ↔
          ((pySort mtimeLe
              (files.filter (fun g => endsWithBlobs g.name))).reverse.getD
            (keep - 1) ⟨"", 0⟩).mtime ≤ f.mtime)) := by
  refine ⟨?_, ?_, ?_⟩
  · intro hk
    subst hk
    simpa [cleanup] using hf
  · intro hk hle
    rw [cleanup_noop_branch files keep hk hle]
    exact hf
  · intro hk hgt
    rw [cleanup_deletion_branch files keep hk hgt, List.mem_filter]
    constructor
    · rintro ⟨-, hpred⟩
      simp only [Bool.not_eq_true', decide_eq_false_iff_not] at hpred
      omega
    · intro hge
      refine ⟨hf, ?_⟩
      simp only [Bool.not_eq_true', decide_eq_false_iff_not]
      omega

theorem cleanup_nonmatching_by_mtime_witness :
    ((⟨"y.dat", 15⟩ : RFile)
        ∈ ([⟨"y.dat", 15⟩, ⟨"a.blobs", 10⟩, ⟨"b.blobs", 20⟩] : List RFile))
    ∧ is_data_file "y.dat" = false
    ∧ ((⟨"y.dat", 15⟩ : RFile)
        ∈ cleanup [⟨"y.dat", 15⟩, ⟨"a.blobs", 10⟩, ⟨"b.blobs", 20⟩] 1 ↔
        ((pySort mtimeLe
            (([⟨"y.dat", 15⟩, ⟨"a.blobs", 10⟩,
              ⟨"b.blobs", 20⟩] : List RFile).filter
              (fun g => endsWithBlobs g.name))).reverse.getD 0
          ⟨"", 0⟩).mtime ≤ (⟨"y.dat", 15⟩ : RFile).mtime) :=
  ⟨by decide, by decide,
   (cleanup_nonmatching_by_mtime
      [⟨"y.dat", 15⟩, ⟨"a.blobs", 10⟩, ⟨"b.blobs", 20⟩] 1
      ⟨"y.dat", 15⟩ (by decide) (by decide)).2.2 (by decide) (by decide)⟩

end Repobo

namespace Repobo

theorem akey_stamp_le {a b : Archive} (h : fnameLe b a = true) :
    b.stamp ≤ a.stamp := by
  simp only [fnameLe, decide_eq_true_eq] at h
  cases ha : a.kind <;> cases hb : b.kind <;>
    simp only [Archive.akey, ha, hb] at h <;> omega

theorem scanNeeded_eq_of_le (t1 t2 : Nat) (h12 : t1 ≤ t2) :
    ∀ l, (∀ a ∈ l, a.stamp ≤ t1) → scanNeeded t1 l = scanNeeded t2 l
  | [], _ => rfl
  | f :: rest, hall => by
      have hf : f.stamp ≤ t1 := hall f (List.mem_cons_self f rest)
      rw [scanNeeded, scanNeeded, if_pos hf, if_pos (le_trans hf h12)]
      by_cases hk : f.kind = .full
      · rw [if_pos hk, if_pos hk]
      · rw [if_neg hk, if_neg hk, scanNeeded_eq_of_le t1 t2 h12 rest
          (fun a ha => hall a (List.mem_cons_of_mem f ha))]

theorem scanNeeded_suffix (t1 t2 : Nat) (h12 : t1 ≤ t2) :
    ∀ l, l.Pairwise (fun a b => fnameLe b a = true) →
      (∀ a ∈ l, a.kind = .full → ¬(t1 < a.stamp ∧ a.stamp ≤ t2)) →
      scanNeeded t1 l <:+ scanNeeded t2 l
  | [], _, _ => by simp [scanNeeded]
  | f :: rest, hp, hfull => by
      rcases List.pairwise_cons.mp hp with ⟨hhead, hrest⟩
      by_cases h2 : f.stamp ≤ t2
      · by_cases h1 : f.stamp ≤ t1
        · have hall : ∀ a ∈ f :: rest, a.stamp ≤ t1 := by
            intro a ha
            rcases List.mem_cons.mp ha with rfl | ha'
            · exact h1
            · exact le_trans (akey_stamp_le (hhead a ha')) h1
          rw [scanNeeded_eq_of_le t1 t2 h12 _ hall]
        · have hk : f.kind = .delta := by
            cases hfk : f.kind
            · exact absurd ⟨Nat.lt_of_not_le h1, h2⟩
                (hfull f (List.mem_cons_self f rest) hfk)
            · rfl
          rw [scanNeeded, scanNeeded, if_pos h2, if_neg h1,
            if_neg (show ¬ f.kind = .full by simp [hk])]
          exact (scanNeeded_suffix t1 t2 h12 rest hrest
            (fun a ha => hfull a (List.mem_cons_of_mem f ha))).trans
            (List.suffix_cons f _)
      · have h1 : ¬ f.stamp ≤ t1 := fun hc => h2 (le_trans hc h12)
        rw [scanNeeded, scanNeeded, if_neg h1, if_neg h2]
        exact scanNeeded_suffix t1 t2 h12 rest hrest
          (fun a ha => hfull a (List.mem_cons_of_mem f ha))

end Repobo

namespace Repobo

/-- C9 counterexample: with Full archives at stamps 0 and 2, target times
`t1 = 1 ≤ t2 = 2` and no Full archive strictly between 1 and 2, the chain
for `t1` is `[full@0]` while the chain for `t2` is `[full@2]`: a Full
archive sitting exactly at `t2` breaks the prefix property, so the side
condition must exclude Fulls with `t1 < stamp ≤ t2`, not just
`t1 < stamp < t2`. -/
theorem chain_prefix_counterexample :
    find_files [⟨0, .full, []⟩, ⟨2, .full, []⟩] 1 = [⟨0, .full, []⟩]
    ∧ find_files [⟨0, .full, []⟩, ⟨2, .full, []⟩] 2 = [⟨2, .full, []⟩]
    ∧ (∀ a ∈ ([⟨0, .full, []⟩, ⟨2, .full, []⟩] : List Archive),
        a.kind = .full → ¬(1 < a.stamp ∧ a.stamp < 2))
    ∧ ¬(find_files [⟨0, .full, []⟩, ⟨2, .full, []⟩] 1
        <+: find_files [⟨0, .full, []⟩, ⟨2, .full, []⟩] 2) := by
  decide

/-- C9 (amended): for a fixed repository state and target times
`t1 ≤ t2`, if no Full archive has a timestamp `s` with `t1 < s ≤ t2`
(strictly after `t1` and at or before `t2` — the boundary `t2` itself
must be excluded as well, see the counterexample), then the chain
resolved for `t1` is a prefix of the chain resolved for `t2`. -/
theorem chain_prefix_monotone (repo : List Archive) (t1 t2 : Nat)
    (h12 : t1 ≤ t2)
    (hfull : ∀ a ∈ repo, a.kind = .full → ¬(t1 < a.stamp ∧ a.stamp ≤ t2)) :
    find_files repo t1 <+: find_files repo t2 := by
  have hsorted : ((pySort fnameLe repo).reverse).Pairwise
      (fun a b => fnameLe b a = true) :=
    List.pairwise_reverse.mpr (pySort_sorted fnameLe_trans fnameLe_tot repo)
  have hmem : ∀ a ∈ (pySort fnameLe repo).reverse, a ∈ repo := by
    intro a ha
    exact (pySort_perm fnameLe repo).subset (List.mem_reverse.mp ha)
  have hsf := scanNeeded_suffix t1 t2 h12 _ hsorted
    (fun a ha => hfull a (hmem a ha))
  simp only [find_files]
  exact List.reverse_prefix.mpr hsf

theorem chain_prefix_monotone_witness :
    (1 : Nat) ≤ 3
    ∧ (∀ a ∈ ([⟨0, .full, []⟩, ⟨1, .delta, []⟩,
        ⟨2, .delta, []⟩] : List Archive),
        a.kind = .full → ¬(1 < a.stamp ∧ a.stamp ≤ 3))
    ∧ find_files [⟨0, .full, []⟩, ⟨1, .delta, []⟩, ⟨2, .delta, []⟩] 1
        <+: find_files [⟨0, .full, []⟩, ⟨1, .delta, []⟩, ⟨2, .delta, []⟩] 3 :=
  ⟨by decide, by decide,
   chain_prefix_monotone [⟨0, .full, []⟩, ⟨1, .delta, []⟩, ⟨2, .delta, []⟩]
     1 3 (by decide) (by decide)⟩

end Repobo

namespace Repobo

/-! ### Tree listing: accumulator and membership characterisation -/

mutual

theorem listd_acc : ∀ (t : FsTree) (pre : FPath) (ll : List FPath),
    listd t pre ll = ll ++ listd t pre []
  | .file, pre, ll => by
      by_cases h : pre = [] <;> simp [listd, h]
  | .dir cs, pre, ll => by
      by_cases h : pre = []
      · rw [listd, listd, if_pos h, if_pos h, listdF_acc cs pre ll]
      · rw [listd, listd, if_neg h, if_neg h, listdF_acc cs pre (ll ++ [pre]),
          listdF_acc cs pre ([] ++ [pre]), List.append_assoc]
        simp

theorem listdF_acc : ∀ (cs : Forest) (pre : FPath) (ll : List FPath),
    listdF cs pre ll = ll ++ listdF cs pre []
  | [], _, _ => by simp [listdF]
  | (n, c) :: rest, pre, ll => by
      rw [listdF, listdF, listdF_acc rest pre (listd c (pre ++ [n]) ll),
        listdF_acc rest pre (listd c (pre ++ [n]) []),
        listd_acc c (pre ++ [n]) ll, List.append_assoc]

end

theorem childNamed_cons (n : String) (c : FsTree) (rest : Forest)
    (m : String) :
    childNamed ((n, c) :: rest) m = if n = m then some c else childNamed rest m :=
  rfl

theorem nodeAt_dir_cons (cs : Forest) (m : String) (q : FPath) :
    nodeAt (.dir cs) (m :: q)
      = match childNamed cs m with
        | some c => nodeAt c q
        | none => none := rfl

theorem wf_childNamed : ∀ (cs : Forest) (n : String) (c : FsTree),
    wfForest cs = true → childNamed cs n = some c → FsTree.wf c = true
  | [], _, _, _, h => by simp [childNamed] at h
  | (m, t) :: rest, n, c, hwf, h => by
      rw [wfForest, Bool.and_eq_true, Bool.and_eq_true] at hwf
      rw [childNamed] at h
      by_cases hmn : m = n
      · rw [if_pos hmn] at h
        cases h
        exact hwf.1.2
      · rw [if_neg hmn] at h
        exact wf_childNamed rest n c hwf.2 h

theorem wf_nodeAt : ∀ (p : FPath) (t s : FsTree),
    FsTree.wf t = true → nodeAt t p = some s → FsTree.wf s = true
  | [], t, s, hwf, h => by
      rw [nodeAt] at h
      cases h
      exact hwf
  | n :: rest, t, s, hwf, h => by
      cases t with
      | file => simp [nodeAt] at h
      | dir cs =>
          rw [nodeAt_dir_cons] at h
          rcases hc : childNamed cs n with _ | c
          · rw [hc] at h
            simp at h
          · rw [hc] at h
            exact wf_nodeAt rest c s
              (wf_childNamed cs n c (by simpa [FsTree.wf] using hwf) hc) h

theorem nodeAt_append : ∀ (p : FPath) (t : FsTree) (q : FPath),
    nodeAt t (p ++ q) = (nodeAt t p).bind (fun s => nodeAt s q)
  | [], t, q => by simp [nodeAt]
  | n :: rest, t, q => by
      cases t with
      | file => simp [nodeAt]
      | dir cs =>
          rw [List.cons_append, nodeAt_dir_cons, nodeAt_dir_cons]
          rcases hc : childNamed cs n with _ | c
          · simp
          · exact nodeAt_append rest c q

mutual

theorem mem_listd_iff : ∀ (t : FsTree), FsTree.wf t = true →
    ∀ (pre p : FPath),
      (p ∈ listd t pre [] ↔
        ∃ q, p = pre ++ q ∧ (pre = [] → q ≠ [])
          ∧ (nodeAt t q).isSome = true)
  | .file, _, pre, p => by
      by_cases hpre : pre = []
      · subst hpre
        rw [listd, if_pos rfl]
        constructor
        · intro h
          exact absurd h (List.not_mem_nil p)
        · rintro ⟨q, hpq, hne, hsome⟩
          exfalso
          cases q with
          | nil => exact hne rfl rfl
          | cons x xs => simp [nodeAt] at hsome
      · rw [listd, if_neg hpre]
        simp only [List.nil_append, List.mem_singleton]
        constructor
        · rintro rfl
          exact ⟨[], by simp, fun h => absurd h hpre, by simp [nodeAt]⟩
        · rintro ⟨q, rfl, -, hsome⟩
          cases q with
          | nil => simp
          | cons x xs => simp [nodeAt] at hsome
  | .dir cs, hwf, pre, p => by
      have hwfF : wfForest cs = true := by simpa [FsTree.wf] using hwf
      rw [listd]
      by_cases hpre : pre = []
      · subst hpre
        rw [if_pos rfl]
        rw [mem_listdF_iff cs hwfF [] p]
        constructor
        · rintro ⟨q, hq, hpq, hsome⟩
          exact ⟨q, hpq, fun _ => hq, hsome⟩
        · rintro ⟨q, hpq, hne, hsome⟩
          exact ⟨q, hne rfl, hpq, hsome⟩
      · rw [if_neg hpre, listdF_acc cs pre ([] ++ [pre])]
        simp only [List.nil_append, List.singleton_append, List.mem_cons]
        rw [mem_listdF_iff cs hwfF pre p]
        constructor
        · rintro (rfl | ⟨q, hq, hpq, hsome⟩)
          · exact ⟨[], by simp, fun h => absurd h hpre, by simp [nodeAt]⟩
          · exact ⟨q, hpq, fun h => absurd h hpre, hsome⟩
        · rintro ⟨q, hpq, -, hsome⟩
          cases q with
          | nil => left; simpa using hpq
          | cons x xs => right; exact ⟨x :: xs, by simp, hpq, hsome⟩

theorem mem_listdF_iff : ∀ (cs : Forest), wfForest cs = true →
    ∀ (pre p : FPath),
      (p ∈ listdF cs pre [] ↔
        ∃ q, q ≠ [] ∧ p = pre ++ q ∧ (nodeAt (.dir cs) q).isSome = true)
  | [], _, pre, p => by
      rw [listdF]
      constructor
      · intro h
        exact absurd h (List.not_mem_nil p)
      · rintro ⟨q, hq, hpq, hsome⟩
        exfalso
        cases q with
        | nil => exact hq rfl
        | cons x xs => simp [nodeAt_dir_cons, childNamed] at hsome
  | (n, c) :: rest, hwf, pre, p => by
      rw [wfForest, Bool.and_eq_true, Bool.and_eq_true] at hwf
      obtain ⟨⟨hnone, hwfc⟩, hwfrest⟩ := hwf
      rw [listdF, listdF_acc rest pre (listd c (pre ++ [n]) []),
        List.mem_append]
      rw [mem_listd_iff c hwfc (pre ++ [n]) p,
        mem_listdF_iff rest hwfrest pre p]
      constructor
      · rintro (⟨q', hq', -, hsome⟩ | ⟨q, hq, hpq, hsome⟩)
        · refine ⟨n :: q', by simp, by simpa [List.append_assoc] using hq', ?_⟩
          rw [nodeAt_dir_cons, childNamed_cons, if_pos rfl]
          exact hsome
        · cases q with
          | nil => exact absurd rfl hq
          | cons m q'' =>
              have hmn : ¬ n = m := by
                intro he
                subst he
                rw [nodeAt_dir_cons,
                  Option.isNone_iff_eq_none.mp hnone] at hsome
                simp at hsome
              refine ⟨m :: q'', by simp, hpq, ?_⟩
              rw [nodeAt_dir_cons, childNamed_cons, if_neg hmn]
              rw [nodeAt_dir_cons] at hsome
              exact hsome
      · rintro ⟨q, hq, hpq, hsome⟩
        cases q with
        | nil => exact absurd rfl hq
        | cons m q'' =>
            rw [nodeAt_dir_cons, childNamed_cons] at hsome
            by_cases hmn : n = m
            · rw [if_pos hmn] at hsome
              subst hmn
              left
              exact ⟨q'', by simpa [List.append_assoc] using hpq,
                fun h => by simp at h, hsome⟩
            · rw [if_neg hmn] at hsome
              right
              exact ⟨m :: q'', by simp, hpq, by
                rw [nodeAt_dir_cons]
                exact hsome⟩

end

theorem mem_rootListd_iff (src : Forest) (hwf : wfForest src = true)
    (p : FPath) :
    p ∈ listd (.dir src) [] [] ↔ p ≠ [] ∧ isPathF src p = true := by
  rw [mem_listd_iff (.dir src) (by simpa [FsTree.wf] using hwf) [] p]
  constructor
  · rintro ⟨q, rfl, hne, hsome⟩
    exact ⟨by simpa using hne rfl, hsome⟩
  · rintro ⟨hne, hsome⟩
    exact ⟨p, by simp, fun _ => hne, hsome⟩

end Repobo

namespace Repobo

/-! ### Tar member names versus tree listings -/

mutual

theorem tarAddTree_names : ∀ (t : FsTree) (pre : FPath), pre ≠ [] →
    (tarAddTree t pre).map (fun m => m.path) = listd t pre []
  | .file, pre, h => by simp [tarAddTree, listd, h]
  | .dir cs, pre, h => by
      rw [tarAddTree, listd, if_neg h, listdF_acc cs pre ([] ++ [pre])]
      simp only [List.map_cons, List.nil_append, List.singleton_append]
      rw [tarAddForest_names cs pre]

theorem tarAddForest_names : ∀ (cs : Forest) (pre : FPath),
    (tarAddForest cs pre).map (fun m => m.path) = listdF cs pre []
  | [], pre => by simp [tarAddForest, listdF]
  | (n, c) :: rest, pre => by
      rw [tarAddForest, listdF,
        listdF_acc rest pre (listd c (pre ++ [n]) []), List.map_append,
        tarAddTree_names c (pre ++ [n]) (by simp),
        tarAddForest_names rest pre]

end

theorem tarAddForest_root_names (src : Forest) :
    (tarAddForest src []).map (fun m => m.path) = listd (.dir src) [] [] := by
  rw [tarAddForest_names src [], listd, if_pos rfl]

theorem mem_addPath_names (src : Forest) (hwf : wfForest src = true)
    (d : FPath) (hd : d ≠ []) (hsome : isPathF src d = true) (p : FPath) :
    p ∈ (addPath src d).map (fun m => m.path) ↔
      d <+: p ∧ isPathF src p = true := by
  rw [isPathF, Option.isSome_iff_exists] at hsome
  obtain ⟨t, ht⟩ := hsome
  have hwft : FsTree.wf t = true :=
    wf_nodeAt d (.dir src) t (by simpa [FsTree.wf] using hwf) ht
  rw [addPath, ht, tarAddTree_names t d hd,
    mem_listd_iff t hwft d p]
  constructor
  · rintro ⟨q, rfl, -, hsome'⟩
    refine ⟨⟨q, rfl⟩, ?_⟩
    rw [isPathF, nodeAt_append d (.dir src) q, ht]
    simpa using hsome'
    
  · rintro ⟨⟨q, rfl⟩, hp⟩
    refine ⟨q, rfl, fun hcon => absurd hcon hd, ?_⟩
    rw [isPathF, nodeAt_append d (.dir src) q, ht] at hp
    simpa using hp

end Repobo

namespace Repobo

theorem mem_incr_names (src : Forest) (hwf : wfForest src = true)
    (delta : List FPath)
    (hdel : ∀ d ∈ delta, d ≠ [] ∧ isPathF src d = true) (p : FPath) :
    p ∈ (delta.flatMap (addPath src)).map (fun m => m.path) ↔
      (∃ d ∈ delta, d <+: p) ∧ isPathF src p = true := by
  rw [List.map_flatMap]
  rw [List.mem_flatMap]
  constructor
  · rintro ⟨d, hd, hp⟩
    rcases hdel d hd with ⟨hne, hsome⟩
    rcases (mem_addPath_names src hwf d hne hsome p).mp hp with ⟨hpref, hpath⟩
    exact ⟨⟨d, hd, hpref⟩, hpath⟩
  · rintro ⟨⟨d, hd, hpref⟩, hpath⟩
    rcases hdel d hd with ⟨hne, hsome⟩
    exact ⟨d, hd, (mem_addPath_names src hwf d hne hsome p).mpr ⟨hpref, hpath⟩⟩

/-- The nonempty initial segments of a path. -/
def initsPos (p : FPath) : List FPath :=
  (List.range p.length).map (fun k => p.take (k + 1))

/-- Closure of a name set under nonempty initial segments (tar name sets
produced by recursive `tarfile.add` calls have this property). -/
def prefClosedB (l : List FPath) : Bool :=
  l.all (fun p => (initsPos p).all (fun q => decide (q ∈ l)))

theorem prefClosedB_spec (l : List FPath) (h : prefClosedB l = true) :
    ∀ p ∈ l, ∀ q, q <+: p → q ≠ [] → q ∈ l := by
  intro p hp q hqp hq
  simp only [prefClosedB, List.all_eq_true, decide_eq_true_eq] at h
  have hqlen : 0 < q.length := List.length_pos.mpr hq
  have hlenle : q.length ≤ p.length := hqp.length_le
  have hmem : p.take (q.length - 1 + 1) ∈ initsPos p := by
    rw [initsPos]
    refine List.mem_map.mpr ⟨q.length - 1, List.mem_range.mpr (by omega), rfl⟩
  have := h p hp _ hmem
  have hq' : q = p.take q.length := List.prefix_iff_eq_take.mp hqp
  rwa [show q.length - 1 + 1 = q.length by omega, ← hq'] at this

theorem do_backup_branches (repo : List Archive) (src : Forest)
    (killold : Bool) (now : Nat) (hne : ¬ find_files repo now = []) :
    do_backup repo src false killold now =
      (if pySetEq (concat (find_files repo now)) (listd (.dir src) [] [])
        then .ok repo
        else if !pySubsetB (concat (find_files repo now))
            (listd (.dir src) [] [])
          then do_full_backup repo src now killold
          else do_incremental_backup repo src now
            (pyDiff (listd (.dir src) [] [])
              (concat (find_files repo now)))) := by
  simp [do_backup, hne]

end Repobo

namespace Repobo

/-- C2 counterexample: repository `[full@1]` whose single member name is
`x/y` (no member `x`), live tree `{x/, x/y}`.  The names are a strict
subset of the tree, so the planner writes an Incremental for the
difference `{x}` — but `tarfile.add` is recursive, so the written archive
holds members `{x, x/y}`, which is not "exactly current minus
reconstructed" = `{x}`. -/
theorem incremental_members_counterexample :
    do_backup [⟨1, .full, [⟨["x", "y"], false⟩]⟩]
        [("x", .dir [("y", .file)])] false false 2
      = .ok [⟨1, .full, [⟨["x", "y"], false⟩]⟩,
          ⟨2, .delta, [⟨["x"], true⟩, ⟨["x", "y"], false⟩]⟩]
    ∧ pyDiff (listd (.dir [("x", .dir [("y", .file)])]) [] [])
        (concat (find_files [⟨1, .full, [⟨["x", "y"], false⟩]⟩] 2))
      = [["x"]]
    ∧ pySetEq [["x"], ["x", "y"]] [["x"]] = false := by
  decide

/-- C2 (amended): for a backup invocation without the force-full flag
whose resolved chain is non-empty, with `current` the live tree listing
and `reconstructed` the chain's member names: if they are equal as sets
no archive is written; if `reconstructed` is not a subset of `current`, a
Full archive is written (provided its filename is free, else
`WouldOverwriteFiles` — see C5); otherwise one Incremental archive is
written (same proviso) whose member-name set is `current minus
reconstructed` together with all live-tree descendants of those paths —
which collapses to exactly `current minus reconstructed` whenever
`reconstructed` is closed under nonempty initial segments, as every
archive produced by recursive `tarfile.add` is. -/
theorem planner_decision (repo : List Archive) (src : Forest) (now : Nat)
    (hwf : wfForest src = true)
    (hne : find_files repo now ≠ []) :
    (pySetEq (concat (find_files repo now)) (listd (.dir src) [] []) = true →
      do_backup repo src false false now = .ok repo)
    ∧ (pySubsetB (concat (find_files repo now))
          (listd (.dir src) [] []) = false →
        existsName repo now .full = false →
        do_backup repo src false false now
          = .ok (repo ++ [⟨now, .full, tarAddForest src []⟩]))
    ∧ (pySubsetB (concat (find_files repo now))
          (listd (.dir src) [] []) = true →
        pySetEq (concat (find_files repo now))
          (listd (.dir src) [] []) = false →
        existsName repo now .delta = false →
        do_backup repo src false false now
            = .ok (repo ++ [⟨now, .delta,
                (pyDiff (listd (.dir src) [] [])
                  (concat (find_files repo now))).flatMap (addPath src)⟩])
          ∧ (∀ p, p ∈ ((pyDiff (listd (.dir src) [] [])
                (concat (find_files repo now))).flatMap
                  (addPath src)).map (fun m => m.path) ↔
              p ∈ listd (.dir src) [] []
              ∧ ∃ d ∈ pyDiff (listd (.dir src) [] [])
                  (concat (find_files repo now)), d <+: p)
          ∧ (prefClosedB (concat (find_files repo now)) = true →
              pySetEq (((pyDiff (listd (.dir src) [] [])
                  (concat (find_files repo now))).flatMap
                    (addPath src)).map (fun m => m.path))
                (pyDiff (listd (.dir src) [] [])
                  (concat (find_files repo now))) = true)) := by
  have hbr := do_backup_branches repo src false now hne
  set bl := listd (.dir src) [] [] with hbl
  set bk := concat (find_files repo now) with hbk
  have hdel : ∀ d ∈ pyDiff bl bk, d ≠ [] ∧ isPathF src d = true := by
    intro d hd
    have hdbl : d ∈ bl := ((mem_pyDiff bl bk d).mp hd).1
    exact (mem_rootListd_iff src hwf d).mp hdbl
  have hchar : ∀ p, p ∈ ((pyDiff bl bk).flatMap
        (addPath src)).map (fun m => m.path) ↔
      p ∈ bl ∧ ∃ d ∈ pyDiff bl bk, d <+: p := by
    intro p
    rw [mem_incr_names src hwf _ hdel p]
    constructor
    · rintro ⟨⟨d, hd, hpref⟩, hpath⟩
      have hpne : p ≠ [] := by
        intro hcon
        subst hcon
        have := List.eq_nil_of_prefix_nil hpref
        exact (hdel d hd).1 this
      exact ⟨(mem_rootListd_iff src hwf p).mpr ⟨hpne, hpath⟩, d, hd, hpref⟩
    · rintro ⟨hpbl, d, hd, hpref⟩
      exact ⟨⟨d, hd, hpref⟩, ((mem_rootListd_iff src hwf p).mp hpbl).2⟩
  refine ⟨?_, ?_, ?_⟩
  · intro hset
    rw [hbr, if_pos hset]
  · intro hsub hnc
    have hset : pySetEq bk bl = false := by
      cases hs : pySetEq bk bl
      · rfl
      · exfalso
        have := (pySetEq_iff bk bl).mp hs
        have hsub' : pySubsetB bk bl = true :=
          (pySubsetB_iff bk bl).mpr (fun x hx => (this x).mp hx)
        rw [hsub'] at hsub
        cases hsub
    rw [hbr, if_neg (by simp [hset]), if_pos (by simp [hsub])]
    simp [do_full_backup, hnc]
  · intro hsub hset hnc
    rw [hbr, if_neg (by simp [hset]), if_neg (by simp [hsub])]
    refine ⟨by simp [do_incremental_backup, hnc], hchar, ?_⟩
    intro hclosed
    rw [pySetEq_iff]
    intro x
    rw [hchar x, mem_pyDiff]
    constructor
    · rintro ⟨hxbl, d, hd, hpref⟩
      refine ⟨hxbl, fun hxbk => ?_⟩
      have hdbk := prefClosedB_spec bk hclosed x hxbk d hpref (hdel d hd).1
      exact ((mem_pyDiff bl bk d).mp hd).2 hdbk
    · intro hx
      exact ⟨hx.1, x, (mem_pyDiff bl bk x).mpr hx, List.prefix_refl x⟩

theorem planner_decision_witness :
    wfForest [("a", FsTree.file), ("b", FsTree.file)] = true
    ∧ find_files [⟨1, .full, [⟨["a"], false⟩]⟩] 2 ≠ []
    ∧ do_backup [⟨1, .full, [⟨["a"], false⟩]⟩]
          [("a", FsTree.file), ("b", FsTree.file)] false false 2
        = .ok [⟨1, .full, [⟨["a"], false⟩]⟩,
            ⟨2, .delta,
              (pyDiff
                (listd (.dir [("a", FsTree.file), ("b", FsTree.file)]) [] [])
                (concat (find_files [⟨1, .full, [⟨["a"], false⟩]⟩] 2))).flatMap
                  (addPath [("a", FsTree.file), ("b", FsTree.file)])⟩] :=
  ⟨by decide, by decide,
   ((planner_decision [⟨1, .full, [⟨["a"], false⟩]⟩]
      [("a", FsTree.file), ("b", FsTree.file)] 2 (by decide) (by decide)).2.2
      (by decide) (by decide) (by decide)).1⟩

end Repobo

namespace Repobo

/-! ### Appending a freshly written archive to the repository listing -/

theorem akey_cases (a : Archive) :
    (a.kind = .full ∧ a.akey = 2 * a.stamp)
    ∨ (a.kind = .delta ∧ a.akey = 2 * a.stamp + 1) := by
  cases h : a.kind
  · exact .inl ⟨rfl, by simp [Archive.akey, h]⟩
  · exact .inr ⟨rfl, by simp [Archive.akey, h]⟩

theorem existsName_false_spec (repo : List Archive) (now : Nat) (k : Kind)
    (h : existsName repo now k = false) :
    ∀ a ∈ repo, ¬(a.stamp = now ∧ a.kind = k) := by
  intro a ha hcon
  have : existsName repo now k = true := by
    rw [existsName, List.any_eq_true]
    exact ⟨a, ha, by simp [hcon.1, hcon.2]⟩
  rw [h] at this
  cases this

theorem insLe_insLe_comm {α : Type} {le : α → α → Bool}
    (htrans : ∀ a b c, le a b = true → le b c = true → le a c = true)
    (x z : α) (hzx : le z x = true) (hxz : le x z = false) :
    ∀ s, insLe le z (insLe le x s) = insLe le x (insLe le z s)
  | [] => by simp [insLe, hzx, hxz]
  | y :: ys => by
      by_cases hxy : le x y
      · have hzy : le z y = true := htrans z x y hzx hxy
        simp [insLe, hxy, hzy, hzx, hxz]
      · by_cases hzy : le z y
        · simp [insLe, hxy, hzy, hxz]
        · have e1 : insLe le x (y :: ys) = y :: insLe le x ys := by
            simp [insLe, hxy]
          have e2 : insLe le z (y :: ys) = y :: insLe le z ys := by
            simp [insLe, hzy]
          have e3 : insLe le z (y :: insLe le x ys)
              = y :: insLe le z (insLe le x ys) := by
            simp [insLe, hzy]
          have e4 : insLe le x (y :: insLe le z ys)
              = y :: insLe le x (insLe le z ys) := by
            simp [insLe, hxy]
          rw [e1, e3, e2, e4, insLe_insLe_comm htrans x z hzx hxz ys]

theorem pySort_append {α : Type} {le : α → α → Bool}
    (htrans : ∀ a b c, le a b = true → le b c = true → le a c = true)
    (htot : ∀ a b, le a b = false → le b a = true) (x : α) :
    ∀ l, (∀ y ∈ l, le y x = false ∨ le x y = false) →
      pySort le (l ++ [x]) = insLe le x (pySort le l)
  | [], _ => rfl
  | z :: l, hall => by
      have hz := hall z (List.mem_cons_self z l)
      have hrec := pySort_append htrans htot x l
        (fun y hy => hall y (List.mem_cons_of_mem z hy))
      show insLe le z (pySort le (l ++ [x]))
        = insLe le x (insLe le z (pySort le l))
      rw [hrec]
      rcases hz with hzx | hxz
      · have hxz' : le x z = true := htot z x hzx
        exact (insLe_insLe_comm htrans z x hxz' hzx (pySort le l)).symm
      · have hzx' : le z x = true := htot x z hxz
        exact insLe_insLe_comm htrans x z hzx' hxz (pySort le l)

theorem insLe_eq_take_drop {α : Type} (le : α → α → Bool) (x : α) :
    ∀ l : List α, insLe le x l
      = l.takeWhile (fun y => !le x y) ++ x :: l.dropWhile (fun y => !le x y)
  | [] => rfl
  | y :: ys => by
      by_cases h : le x y
      · simp [insLe, h, List.takeWhile_cons, List.dropWhile_cons]
      · have e1 : insLe le x (y :: ys) = y :: insLe le x ys := by
          simp [insLe, h]
        have e2 : (y :: ys).takeWhile (fun z => !le x z)
            = y :: ys.takeWhile (fun z => !le x z) := by
          simp [List.takeWhile_cons, h]
        have e3 : (y :: ys).dropWhile (fun z => !le x z)
            = ys.dropWhile (fun z => !le x z) := by
          simp [List.dropWhile_cons, h]
        rw [e1, e2, e3, insLe_eq_take_drop le x ys, List.cons_append]

theorem sorted_dropWhile_ge {α : Type} {le : α → α → Bool}
    (htrans : ∀ a b c, le a b = true → le b c = true → le a c = true)
    (x : α) :
    ∀ l : List α, l.Pairwise (fun a b => le a b = true) →
      ∀ y ∈ l.dropWhile (fun y => !le x y), le x y = true
  | [], _, y, hy => by simp [List.dropWhile] at hy
  | z :: zs, hp, y, hy => by
      rcases List.pairwise_cons.mp hp with ⟨hz, hzs⟩
      rw [List.dropWhile_cons] at hy
      by_cases h : le x z
      · rw [if_neg (by simp [h])] at hy
        rcases List.mem_cons.mp hy with rfl | hy'
        · exact h
        · exact htrans x z y h (hz y hy')
      · rw [if_pos (by simp [h])] at hy
        exact sorted_dropWhile_ge htrans x zs hzs y hy

theorem scanNeeded_append_skip (when : Nat) :
    ∀ (l₁ l₂ : List Archive), (∀ y ∈ l₁, ¬ y.stamp ≤ when) →
      scanNeeded when (l₁ ++ l₂) = scanNeeded when l₂
  | [], _, _ => rfl
  | y :: l₁, l₂, hall => by
      rw [List.cons_append, scanNeeded,
        if_neg (hall y (List.mem_cons_self y l₁))]
      exact scanNeeded_append_skip when l₁ l₂
        (fun z hz => hall z (List.mem_cons_of_mem y hz))

theorem scanNeeded_append_full (when : Nat) (x : Archive)
    (hx : x.stamp ≤ when) (hk : x.kind = .full) :
    ∀ (l₁ l₂ : List Archive),
      (∀ y ∈ l₁, y.kind = .delta ∨ ¬ y.stamp ≤ when) →
      scanNeeded when (l₁ ++ x :: l₂)
        = l₁.filter (fun y => decide (y.stamp ≤ when)) ++ [x]
  | [], l₂, _ => by
      rw [List.nil_append, scanNeeded, if_pos hx, if_pos hk, List.filter_nil,
        List.nil_append]
  | y :: l₁, l₂, hall => by
      have hrec := scanNeeded_append_full when x hx hk l₁ l₂
        (fun z hz => hall z (List.mem_cons_of_mem y hz))
      rcases hall y (List.mem_cons_self y l₁) with hky | hsy
      · by_cases hys : y.stamp ≤ when
        · rw [List.cons_append, scanNeeded, if_pos hys,
            if_neg (by simp [hky]), hrec,
            List.filter_cons_of_pos (by simpa using hys), List.cons_append]
        · rw [List.cons_append, scanNeeded, if_neg hys, hrec,
            List.filter_cons_of_neg (by simpa using hys)]
      · rw [List.cons_append, scanNeeded, if_neg hsy, hrec,
          List.filter_cons_of_neg (by simpa using hsy)]

end Repobo

namespace Repobo

theorem akey_inj {a b : Archive} (h : a.akey = b.akey) :
    a.stamp = b.stamp ∧ a.kind = b.kind := by
  rcases akey_cases a with ⟨hka, hva⟩ | ⟨hka, hva⟩ <;>
    rcases akey_cases b with ⟨hkb, hvb⟩ | ⟨hkb, hvb⟩ <;>
      rw [hva, hvb] at h
  · exact ⟨by omega, by rw [hka, hkb]⟩
  · exact absurd h (by omega)
  · exact absurd h (by omega)
  · exact ⟨by omega, by rw [hka, hkb]⟩

theorem repo_key_fresh (repo : List Archive) (x : Archive) (now : Nat)
    (hxs : x.stamp = now) (hno : existsName repo now x.kind = false) :
    ∀ y ∈ repo, y.akey ≠ x.akey := by
  intro y hy he
  rcases akey_inj he with ⟨h1, h2⟩
  exact existsName_false_spec repo now x.kind hno y hy
    ⟨by omega, h2⟩

theorem repo_key_le_cases (repo : List Archive) (x : Archive) (now : Nat)
    (hxs : x.stamp = now) (hno : existsName repo now x.kind = false) :
    ∀ y ∈ repo, fnameLe y x = false ∨ fnameLe x y = false := by
  intro y hy
  by_cases h1 : fnameLe y x = true
  · by_cases h2 : fnameLe x y = true
    · exfalso
      simp only [fnameLe, decide_eq_true_eq] at h1 h2
      exact repo_key_fresh repo x now hxs hno y hy (Nat.le_antisymm h1 h2)
    · exact .inr (by simpa using h2)
  · exact .inl (by simpa using h1)

theorem find_files_append_delta (repo : List Archive) (x : Archive)
    (now : Nat) (hxs : x.stamp = now) (hxk : x.kind = .delta)
    (hno : existsName repo now .delta = false) :
    find_files (repo ++ [x]) now = find_files repo now ++ [x] := by
  have hno' : existsName repo now x.kind = false := by rwa [hxk]
  have hsplit := pySort_append fnameLe_trans fnameLe_tot x repo
    (repo_key_le_cases repo x now hxs hno')
  have hins := insLe_eq_take_drop fnameLe x (pySort fnameLe repo)
  set s := pySort fnameLe repo with hs
  set s₁ := s.takeWhile (fun y => !fnameLe x y) with hs1
  set s₂ := s.dropWhile (fun y => !fnameLe x y) with hs2
  have hsorted : s.Pairwise (fun a b => fnameLe a b = true) :=
    pySort_sorted fnameLe_trans fnameLe_tot repo
  have hxakey : x.akey = 2 * now + 1 := by
    rcases akey_cases x with ⟨hk, -⟩ | ⟨-, hv⟩
    · rw [hxk] at hk
      cases hk
    · rw [hv, hxs]
  have hs2stamp : ∀ y ∈ s₂.reverse, ¬ y.stamp ≤ now := by
    intro y hy hle
    have hy' : y ∈ s₂ := List.mem_reverse.mp hy
    have hge : fnameLe x y = true :=
      sorted_dropWhile_ge fnameLe_trans x s hsorted y hy'
    have hyrepo : y ∈ repo :=
      (pySort_perm fnameLe repo).subset ((List.dropWhile_sublist _).subset hy')
    have hneq := repo_key_fresh repo x now hxs hno' y hyrepo
    simp only [fnameLe, decide_eq_true_eq] at hge
    rcases akey_cases y with ⟨-, hv⟩ | ⟨-, hv⟩ <;> rw [hv] at hge hneq <;> omega
  have htd : s₁ ++ s₂ = s := List.takeWhile_append_dropWhile _ _
  have hscan' : scanNeeded now ((pySort fnameLe (repo ++ [x])).reverse)
      = x :: scanNeeded now s₁.reverse := by
    rw [hsplit, hins, List.reverse_append, List.reverse_cons,
      List.append_assoc]
    rw [scanNeeded_append_skip now s₂.reverse _ hs2stamp]
    rw [List.singleton_append, scanNeeded, if_pos (by omega),
      if_neg (by simp [hxk])]
  have hscan : scanNeeded now (s.reverse) = scanNeeded now s₁.reverse := by
    rw [← htd, List.reverse_append]
    exact scanNeeded_append_skip now s₂.reverse s₁.reverse hs2stamp
  rw [find_files, find_files, hscan', ← hs, hscan, List.reverse_cons]

theorem find_files_append_full (repo : List Archive) (x : Archive)
    (now : Nat) (hxs : x.stamp = now) (hxk : x.kind = .full)
    (hno : existsName repo now .full = false) :
    ∃ ds, find_files (repo ++ [x]) now = x :: ds
      ∧ ∀ d ∈ ds, d ∈ repo ∧ d.stamp = now ∧ d.kind = .delta := by
  have hno' : existsName repo now x.kind = false := by rwa [hxk]
  have hsplit := pySort_append fnameLe_trans fnameLe_tot x repo
    (repo_key_le_cases repo x now hxs hno')
  have hins := insLe_eq_take_drop fnameLe x (pySort fnameLe repo)
  set s := pySort fnameLe repo with hs
  set s₁ := s.takeWhile (fun y => !fnameLe x y) with hs1
  set s₂ := s.dropWhile (fun y => !fnameLe x y) with hs2
  have hsorted : s.Pairwise (fun a b => fnameLe a b = true) :=
    pySort_sorted fnameLe_trans fnameLe_tot repo
  have hxakey : x.akey = 2 * now := by
    rcases akey_cases x with ⟨-, hv⟩ | ⟨hk, -⟩
    · rw [hv, hxs]
    · rw [hxk] at hk
      cases hk
  have hs2big : ∀ y ∈ s₂, 2 * now < y.akey := by
    intro y hy
    have hge : fnameLe x y = true :=
      sorted_dropWhile_ge fnameLe_trans x s hsorted y hy
    have hyrepo : y ∈ repo :=
      (pySort_perm fnameLe repo).subset ((List.dropWhile_sublist _).subset hy)
    have hneq := repo_key_fresh repo x now hxs hno' y hyrepo
    simp only [fnameLe, decide_eq_true_eq] at hge
    omega
  have hs2repo : ∀ y ∈ s₂, y ∈ repo := by
    intro y hy
    exact (pySort_perm fnameLe repo).subset
      ((List.dropWhile_sublist _).subset hy)
  have hs2alt : ∀ y ∈ s₂.reverse, y.kind = .delta ∨ ¬ y.stamp ≤ now := by
    intro y hy
    have hbig := hs2big y (List.mem_reverse.mp hy)
    rcases akey_cases y with ⟨hk, hv⟩ | ⟨hk, hv⟩
    · exact .inr (by omega)
    · exact .inl hk
  have hscan' : scanNeeded now ((pySort fnameLe (repo ++ [x])).reverse)
      = s₂.reverse.filter (fun y => decide (y.stamp ≤ now)) ++ [x] := by
    rw [hsplit, hins, List.reverse_append, List.reverse_cons,
      List.append_assoc, List.singleton_append]
    exact scanNeeded_append_full now x (by omega) hxk s₂.reverse s₁.reverse
      hs2alt
  refine ⟨(s₂.reverse.filter (fun y => decide (y.stamp ≤ now))).reverse,
    ?_, ?_⟩
  · rw [find_files, hscan', List.reverse_append, List.reverse_singleton,
      List.singleton_append]
  · intro d hd
    have hd' : d ∈ s₂.reverse.filter (fun y => decide (y.stamp ≤ now)) :=
      List.mem_reverse.mp hd
    rcases List.mem_filter.mp hd' with ⟨hmem, hle⟩
    have hmem' : d ∈ s₂ := List.mem_reverse.mp hmem
    have hbig := hs2big d hmem'
    simp only [decide_eq_true_eq] at hle
    rcases akey_cases d with ⟨hk, hv⟩ | ⟨hk, hv⟩
    · exact absurd hle (by omega)
    · exact ⟨hs2repo d hmem', by omega, hk⟩

end Repobo

namespace Repobo

/-! ### Extraction: forest surgery lemmas -/

theorem childNamed_append_of_none : ∀ (cs : Forest) (n : String) (t : FsTree)
    (m : String), childNamed cs n = none →
    childNamed (cs ++ [(n, t)]) m = if n = m then some t else childNamed cs m
  | [], n, t, m, _ => by simp [childNamed]
  | (a, b) :: cs, n, t, m, h => by
      rw [childNamed] at h
      by_cases han : a = n
      · rw [if_pos han] at h
        cases h
      · rw [if_neg han] at h
        rw [List.cons_append, childNamed, childNamed]
        by_cases ham : a = m
        · have hnm : ¬ n = m := fun he => han (by rw [he, ham])
          rw [if_pos ham, if_pos ham, if_neg hnm]
        · rw [if_neg ham, if_neg ham, childNamed_append_of_none cs n t m h]

theorem updateChild_of_none : ∀ (cs : Forest) (n : String) (t' : FsTree),
    childNamed cs n = none → updateChild cs n t' = cs
  | [], _, _, _ => rfl
  | (a, b) :: cs, n, t', h => by
      rw [childNamed] at h
      by_cases han : a = n
      · rw [if_pos han] at h
        cases h
      · rw [if_neg han] at h
        rw [updateChild, if_neg han, updateChild_of_none cs n t' h]

theorem childNamed_update_self : ∀ (cs : Forest) (n : String) (t' c₀ : FsTree),
    childNamed cs n = some c₀ →
    childNamed (updateChild cs n t') n = some t'
  | [], n, t', c₀, h => by simp [childNamed] at h
  | (a, b) :: cs, n, t', c₀, h => by
      rw [childNamed] at h
      by_cases han : a = n
      · rw [updateChild, if_pos han, childNamed, if_pos han]
      · rw [if_neg han] at h
        rw [updateChild, if_neg han, childNamed, if_neg han]
        exact childNamed_update_self cs n t' c₀ h

theorem childNamed_update_other : ∀ (cs : Forest) (n : String) (t' : FsTree)
    (m : String), ¬ m = n →
    childNamed (updateChild cs n t') m = childNamed cs m
  | [], _, _, _, _ => rfl
  | (a, b) :: cs, n, t', m, hmn => by
      by_cases han : a = n
      · rw [updateChild, if_pos han, childNamed, childNamed,
          if_neg (fun he => hmn (by rw [← he, han])),
          if_neg (fun he => hmn (by rw [← he, han]))]
      · rw [updateChild, if_neg han, childNamed, childNamed]
        by_cases ham : a = m
        · rw [if_pos ham, if_pos ham]
        · rw [if_neg ham, if_neg ham,
            childNamed_update_other cs n t' m hmn]

theorem wfForest_append : ∀ (cs : Forest) (n : String) (t : FsTree),
    wfForest cs = true → childNamed cs n = none → FsTree.wf t = true →
    wfForest (cs ++ [(n, t)]) = true
  | [], n, t, _, _, ht => by
      simp [wfForest, childNamed, ht]
  | (a, b) :: cs, n, t, hwf, hn, ht => by
      rw [wfForest, Bool.and_eq_true, Bool.and_eq_true] at hwf
      obtain ⟨⟨hanone, hwb⟩, hwcs⟩ := hwf
      rw [childNamed] at hn
      by_cases han : a = n
      · rw [if_pos han] at hn
        cases hn
      · rw [if_neg han] at hn
        rw [List.cons_append, wfForest, Bool.and_eq_true, Bool.and_eq_true]
        refine ⟨⟨?_, hwb⟩, wfForest_append cs n t hwcs hn ht⟩
        rw [childNamed_append_of_none cs n t a hn,
          if_neg (fun he => han he.symm)]
        exact hanone

theorem wfForest_update : ∀ (cs : Forest) (n : String) (t' : FsTree),
    wfForest cs = true → FsTree.wf t' = true →
    wfForest (updateChild cs n t') = true
  | [], _, _, _, _ => rfl
  | (a, b) :: cs, n, t', hwf, ht => by
      rw [wfForest, Bool.and_eq_true, Bool.and_eq_true] at hwf
      obtain ⟨⟨hanone, hwb⟩, hwcs⟩ := hwf
      by_cases han : a = n
      · rw [updateChild, if_pos han, wfForest, Bool.and_eq_true,
          Bool.and_eq_true]
        exact ⟨⟨hanone, ht⟩, hwcs⟩
      · rw [updateChild, if_neg han, wfForest, Bool.and_eq_true,
          Bool.and_eq_true]
        refine ⟨⟨?_, hwb⟩, wfForest_update cs n t' hwcs ht⟩
        by_cases hne : a = n
        · exact absurd hne han
        · rw [childNamed_update_other cs n t' a han]
          exact hanone

theorem nodeAt_append_child (cs : Forest) (n : String) (t : FsTree)
    (hcn : childNamed cs n = none) (q : FPath) :
    nodeAt (.dir (cs ++ [(n, t)])) (n :: q) = nodeAt t q := by
  rw [nodeAt_dir_cons, childNamed_append_of_none cs n t n hcn, if_pos rfl]

theorem nodeAt_append_other (cs : Forest) (n : String) (t : FsTree)
    (hcn : childNamed cs n = none) (m : String) (hm : ¬ n = m) (q : FPath) :
    nodeAt (.dir (cs ++ [(n, t)])) (m :: q) = nodeAt (.dir cs) (m :: q) := by
  rw [nodeAt_dir_cons, childNamed_append_of_none cs n t m hcn, if_neg hm,
    nodeAt_dir_cons]

theorem nodeAt_update_self (cs : Forest) (n : String) (t' c₀ : FsTree)
    (hcn : childNamed cs n = some c₀) (q : FPath) :
    nodeAt (.dir (updateChild cs n t')) (n :: q) = nodeAt t' q := by
  rw [nodeAt_dir_cons, childNamed_update_self cs n t' c₀ hcn]

theorem nodeAt_update_other (cs : Forest) (n : String) (t' : FsTree)
    (m : String) (hm : ¬ m = n) (q : FPath) :
    nodeAt (.dir (updateChild cs n t')) (m :: q) = nodeAt (.dir cs) (m :: q) := by
  rw [nodeAt_dir_cons, childNamed_update_other cs n t' m hm, nodeAt_dir_cons]

theorem nodeAt_child (cs : Forest) (n : String) (c₀ : FsTree)
    (hcn : childNamed cs n = some c₀) (q : FPath) :
    nodeAt (.dir cs) (n :: q) = nodeAt c₀ q := by
  rw [nodeAt_dir_cons, hcn]

end Repobo

namespace Repobo

theorem nodeAt_nil (t : FsTree) : nodeAt t [] = some t := by
  cases t <;> rfl

/-- The destination agrees with the source on every path it has: the
entry exists in the source with the same node type. -/
def conformsF (ss cs : Forest) : Prop :=
  ∀ p t, p ≠ [] → nodeAt (.dir cs) p = some t →
    ∃ t', nodeAt (.dir ss) p = some t' ∧ isdirT t = isdirT t'

theorem conformsF_nil (ss : Forest) : conformsF ss [] := by
  intro p t hp hnp
  cases p with
  | nil => exact absurd rfl hp
  | cons m q => simp [nodeAt_dir_cons, childNamed] at hnp

/-- A tar member agrees with the source tree: nonempty name, present in
the source, with the member's directory flag matching the node type. -/
def memberOk (ss : Forest) (m : Member) : Bool :=
  decide (m.path ≠ []) &&
    (match nodeAt (.dir ss) m.path with
     | some t => isdirT t == m.isdir
     | none => false)

theorem prefix_cons_elim {q : FPath} {n : String} {p' : FPath}
    (h : q <+: n :: p') (hq : q ≠ []) :
    ∃ q'', q = n :: q'' ∧ q'' <+: p' := by
  cases q with
  | nil => exact absurd rfl hq
  | cons a as =>
      rcases h with ⟨r, hr⟩
      rw [List.cons_append] at hr
      injection hr with h1 h2
      exact ⟨as, by rw [h1], ⟨r, h2⟩⟩

theorem prefix_nil_elim {q : FPath} (h : q <+: ([] : FPath)) : q = [] := by
  rcases h with ⟨r, hr⟩
  exact List.append_eq_nil.mp hr |>.1

theorem prefix_cons_intro {q p' : FPath} (n : String) (h : q <+: p') :
    n :: q <+: n :: p' := by
  rcases h with ⟨r, hr⟩
  exact ⟨r, by rw [List.cons_append, hr]⟩

theorem extractOne_ok : ∀ (p : FPath) (ss cs : Forest) (sub : FsTree)
    (isdir : Bool), wfForest ss = true → wfForest cs = true →
    conformsF ss cs → nodeAt (.dir ss) p = some sub → p ≠ [] →
    isdirT sub = isdir →
    ∃ cs', extractOne cs p isdir = .ok cs'
      ∧ wfForest cs' = true ∧ conformsF ss cs'
      ∧ ∀ q, q ≠ [] →
          ((nodeAt (.dir cs') q).isSome = true ↔
            (nodeAt (.dir cs) q).isSome = true ∨ q <+: p)
  | [], _, _, _, _, _, _, _, _, hne, _ => absurd rfl hne
  | [n], ss, cs, sub, isdir, hwfss, hwfcs, hcf, hnode, _, hdir => by
      have hsn : childNamed ss n = some sub := by
        rcases hc : childNamed ss n with _ | c
        · simp [nodeAt_dir_cons, hc] at hnode
        · rw [nodeAt_child ss n c hc, nodeAt_nil] at hnode
          exact hnode
      rcases hcn : childNamed cs n with _ | c₀
      · refine ⟨cs ++ [(n, if isdir then .dir [] else .file)], ?_, ?_, ?_, ?_⟩
        · simp [extractOne, hcn]
        · exact wfForest_append cs n _ hwfcs hcn
            (by cases isdir <;> simp [FsTree.wf, wfForest])
        · intro q t hq hnq
          cases q with
          | nil => exact absurd rfl hq
          | cons m' q'' =>
              by_cases hnm : n = m'
              · subst hnm
                rw [nodeAt_append_child cs n _ hcn] at hnq
                cases q'' with
                | nil =>
                    rw [nodeAt_nil] at hnq
                    cases hnq
                    refine ⟨sub,
                      by rw [nodeAt_child ss n sub hsn, nodeAt_nil], ?_⟩
                    cases isdir <;> rw [hdir] <;> simp [isdirT]
                | cons z zs =>
                    exfalso
                    cases isdir <;>
                      simp [nodeAt, nodeAt_dir_cons, childNamed] at hnq
              · rw [nodeAt_append_other cs n _ hcn m' hnm] at hnq
                exact hcf (m' :: q'') t hq hnq
        · intro q hq
          cases q with
          | nil => exact absurd rfl hq
          | cons m' q'' =>
              by_cases hnm : n = m'
              · subst hnm
                rw [nodeAt_append_child cs n _ hcn]
                cases q'' with
                | nil =>
                    constructor
                    · intro _
                      exact .inr (List.prefix_refl _)
                    · intro _
                      rw [nodeAt_nil]
                      rfl
                | cons z zs =>
                    constructor
                    · intro hsome
                      exfalso
                      cases isdir <;>
                        simp [nodeAt, nodeAt_dir_cons, childNamed] at hsome
                    · rintro (hsome | hpref)
                      · exfalso
                        rw [nodeAt_dir_cons, hcn] at hsome
                        simp at hsome
                      · exfalso
                        rcases prefix_cons_elim hpref (by simp) with
                          ⟨q₃, he, hq₃⟩
                        injection he with he1 he2
                        rw [← he2] at hq₃
                        exact absurd (prefix_nil_elim hq₃) (by simp)
              · rw [nodeAt_append_other cs n _ hcn m' hnm]
                constructor
                · exact fun h => .inl h
                · rintro (h | hpref)
                  · exact h
                  · exfalso
                    rcases prefix_cons_elim hpref (by simp) with ⟨q₃, he, -⟩
                    injection he with he1 he2
                    exact hnm he1.symm
      · have hpath_iff : ∀ q, q ≠ [] →
            ((nodeAt (.dir cs) q).isSome = true ↔
              (nodeAt (.dir cs) q).isSome = true ∨ q <+: [n]) := by
          intro q hq
          constructor
          · exact fun h => .inl h
          · rintro (h | hpref)
            · exact h
            · rcases prefix_cons_elim hpref hq with ⟨q₃, rfl, hq₃⟩
              rw [prefix_nil_elim hq₃, nodeAt_child cs n c₀ hcn, nodeAt_nil]
              rfl
        cases c₀ with
        | file =>
            refine ⟨cs, ?_, hwfcs, hcf, hpath_iff⟩
            cases isdir <;> simp [extractOne, hcn]
        | dir sub0 =>
            have hdirT : isdir = true := by
              rcases hcf [n] (.dir sub0) (by simp)
                (by rw [nodeAt_child cs n (.dir sub0) hcn, nodeAt_nil]) with
                ⟨t', ht', hdt⟩
              rw [nodeAt_child ss n sub hsn, nodeAt_nil] at ht'
              injection ht' with h
              rw [← h, hdir] at hdt
              simpa [isdirT] using hdt.symm
            subst hdirT
            refine ⟨cs, ?_, hwfcs, hcf, hpath_iff⟩
            simp [extractOne, hcn]
  | n :: m :: rest, ss, cs, sub, isdir, hwfss, hwfcs, hcf, hnode, _,
      hdir => by
      have hp'ne : (m :: rest) ≠ [] := by simp
      rcases hsn : childNamed ss n with _ | s₀
      · simp [nodeAt_dir_cons, hsn] at hnode
      · rw [nodeAt_child ss n s₀ hsn] at hnode
        cases s₀ with
        | file => simp [nodeAt] at hnode
        | dir ssub =>
        have hwfssub : wfForest ssub = true := by
          have := wf_childNamed ss n (.dir ssub) hwfss hsn
          simpa [FsTree.wf] using this
        rcases hcn : childNamed cs n with _ | c₀
        · rcases extractOne_ok (m :: rest) ssub [] sub isdir hwfssub rfl
            (conformsF_nil ssub) hnode hp'ne hdir with
            ⟨sub', hrec, hwf', hcf', hps'⟩
          refine ⟨cs ++ [(n, .dir sub')], ?_, ?_, ?_, ?_⟩
          · simp only [extractOne, hcn, hrec]
            rfl
          · exact wfForest_append cs n _ hwfcs hcn
              (by simpa [FsTree.wf] using hwf')
          · intro q t hq hnq
            cases q with
            | nil => exact absurd rfl hq
            | cons m' q'' =>
                by_cases hnm : n = m'
                · subst hnm
                  rw [nodeAt_append_child cs n _ hcn] at hnq
                  cases q'' with
                  | nil =>
                      rw [nodeAt_nil] at hnq
                      cases hnq
                      exact ⟨.dir ssub,
                        by rw [nodeAt_child ss n (.dir ssub) hsn, nodeAt_nil],
                        by simp [isdirT]⟩
                  | cons z zs =>
                      rcases hcf' (z :: zs) t (by simp) hnq with ⟨t', ht', hdt⟩
                      refine ⟨t', ?_, hdt⟩
                      rw [nodeAt_child ss n (.dir ssub) hsn]
                      exact ht'
                · rw [nodeAt_append_other cs n _ hcn m' hnm] at hnq
                  exact hcf (m' :: q'') t hq hnq
          · intro q hq
            cases q with
            | nil => exact absurd rfl hq
            | cons m' q'' =>
                by_cases hnm : n = m'
                · subst hnm
                  rw [nodeAt_append_child cs n _ hcn]
                  cases q'' with
                  | nil =>
                      rw [nodeAt_nil]
                      constructor
                      · intro _
                        exact .inr ⟨m :: rest, rfl⟩
                      · intro _
                        rfl
                  | cons z zs =>
                      rw [hps' (z :: zs) (by simp)]
                      constructor
                      · rintro (hsome | hpref)
                        · exfalso
                          simp [nodeAt_dir_cons, childNamed] at hsome
                        · exact .inr (prefix_cons_intro n hpref)
                      · rintro (hsome | hpref)
                        · exfalso
                          rw [nodeAt_dir_cons, hcn] at hsome
                          simp at hsome
                        · rcases prefix_cons_elim hpref (by simp) with
                            ⟨q₃, he, hq₃⟩
                          injection he with he1 he2
                          rw [he2]
                          exact .inr hq₃
                · rw [nodeAt_append_other cs n _ hcn m' hnm]
                  constructor
                  · exact fun h => .inl h
                  · rintro (h | hpref)
                    · exact h
                    · exfalso
                      rcases prefix_cons_elim hpref (by simp) with ⟨q₃, he, -⟩
                      injection he with he1 he2
                      exact hnm he1.symm
        · cases c₀ with
          | file =>
              exfalso
              rcases hcf [n] .file (by simp)
                (by rw [nodeAt_child cs n .file hcn, nodeAt_nil]) with
                ⟨t', ht', hdt⟩
              rw [nodeAt_child ss n (.dir ssub) hsn, nodeAt_nil] at ht'
              cases ht'
              simp [isdirT] at hdt
          | dir sub0 =>
              have hwfsub0 : wfForest sub0 = true := by
                have := wf_childNamed cs n (.dir sub0) hwfcs hcn
                simpa [FsTree.wf] using this
              have hcfsub : conformsF ssub sub0 := by
                intro q t hq hnq
                rcases hcf (n :: q) t (by simp)
                  (by rw [nodeAt_child cs n (.dir sub0) hcn]; exact hnq) with
                  ⟨t', ht', hdt⟩
                rw [nodeAt_child ss n (.dir ssub) hsn] at ht'
                exact ⟨t', ht', hdt⟩
              rcases extractOne_ok (m :: rest) ssub sub0 sub isdir hwfssub
                hwfsub0 hcfsub hnode hp'ne hdir with
                ⟨sub', hrec, hwf', hcf', hps'⟩
              refine ⟨updateChild cs n (.dir sub'), ?_, ?_, ?_, ?_⟩
              · simp only [extractOne, hcn, hrec]
                rfl
              · exact wfForest_update cs n _ hwfcs
                  (by simpa [FsTree.wf] using hwf')
              · intro q t hq hnq
                cases q with
                | nil => exact absurd rfl hq
                | cons m' q'' =>
                    by_cases hnm : m' = n
                    · subst hnm
                      rw [nodeAt_update_self cs m' _ (.dir sub0) hcn] at hnq
                      cases q'' with
                      | nil =>
                          rw [nodeAt_nil] at hnq
                          cases hnq
                          exact ⟨.dir ssub,
                            by rw [nodeAt_child ss m' (.dir ssub) hsn,
                              nodeAt_nil],
                            by simp [isdirT]⟩
                      | cons z zs =>
                          rcases hcf' (z :: zs) t (by simp) hnq with
                            ⟨t', ht', hdt⟩
                          refine ⟨t', ?_, hdt⟩
                          rw [nodeAt_child ss m' (.dir ssub) hsn]
                          exact ht'
                    · rw [nodeAt_update_other cs n _ m' hnm] at hnq
                      exact hcf (m' :: q'') t hq hnq
              · intro q hq
                cases q with
                | nil => exact absurd rfl hq
                | cons m' q'' =>
                    by_cases hnm : m' = n
                    · subst hnm
                      rw [nodeAt_update_self cs m' _ (.dir sub0) hcn,
                        nodeAt_child cs m' (.dir sub0) hcn]
                      cases q'' with
                      | nil =>
                          rw [nodeAt_nil, nodeAt_nil]
                          constructor
                          · intro _
                            exact .inl rfl
                          · intro _
                            rfl
                      | cons z zs =>
                          rw [hps' (z :: zs) (by simp)]
                          constructor
                          · rintro (hsome | hpref)
                            · exact .inl hsome
                            · exact .inr (prefix_cons_intro m' hpref)
                          · rintro (hsome | hpref)
                            · exact .inl hsome
                            · rcases prefix_cons_elim hpref (by simp) with
                                ⟨q₃, he, hq₃⟩
                              injection he with he1 he2
                              rw [he2]
                              exact .inr hq₃
                    · rw [nodeAt_update_other cs n _ m' hnm]
                      constructor
                      · exact fun h => .inl h
                      · rintro (h | hpref)
                        · exact h
                        · exfalso
                          rcases prefix_cons_elim hpref (by simp) with
                            ⟨q₃, he, -⟩
                          injection he with he1 he2
                          exact hnm he1

end Repobo

namespace Repobo

theorem memberOk_elim (ss : Forest) (m : Member) (h : memberOk ss m = true) :
    m.path ≠ [] ∧ ∃ t, nodeAt (.dir ss) m.path = some t
      ∧ isdirT t = m.isdir := by
  rw [memberOk, Bool.and_eq_true, decide_eq_true_eq] at h
  rcases h with ⟨hne, hmatch⟩
  rcases hnode : nodeAt (.dir ss) m.path with _ | t
  · rw [hnode] at hmatch
    cases hmatch
  · rw [hnode] at hmatch
    exact ⟨hne, t, rfl, by simpa using hmatch⟩

theorem extractMembers_ok (ss : Forest) (hwfss : wfForest ss = true) :
    ∀ (ms : List Member) (cs : Forest),
      wfForest cs = true → conformsF ss cs →
      (∀ m ∈ ms, memberOk ss m = true) →
      ∃ cs', extractMembers cs ms = .ok cs'
        ∧ wfForest cs' = true ∧ conformsF ss cs'
        ∧ ∀ q, q ≠ [] →
            ((nodeAt (.dir cs') q).isSome = true ↔
              (nodeAt (.dir cs) q).isSome = true ∨ ∃ m ∈ ms, q <+: m.path)
  | [], cs, hwfcs, hcf, _ => ⟨cs, rfl, hwfcs, hcf, by simp⟩
  | m :: ms, cs, hwfcs, hcf, hok => by
      rcases memberOk_elim ss m (hok m (List.mem_cons_self m ms)) with
        ⟨hne, t, hnode, hdir⟩
      rcases extractOne_ok m.path ss cs t m.isdir hwfss hwfcs hcf hnode hne
        hdir with ⟨cs₁, h₁, hwf₁, hcf₁, hps₁⟩
      rcases extractMembers_ok ss hwfss ms cs₁ hwf₁ hcf₁
        (fun m' hm' => hok m' (List.mem_cons_of_mem m hm')) with
        ⟨cs₂, h₂, hwf₂, hcf₂, hps₂⟩
      refine ⟨cs₂, ?_, hwf₂, hcf₂, ?_⟩
      · simp only [extractMembers, h₁]
        show extractMembers cs₁ ms = .ok cs₂
        exact h₂
      · intro q hq
        rw [hps₂ q hq, hps₁ q hq]
        constructor
        · rintro ((h | hpref) | ⟨m', hm', hpref⟩)
          · exact .inl h
          · exact .inr ⟨m, List.mem_cons_self m ms, hpref⟩
          · exact .inr ⟨m', List.mem_cons_of_mem m hm', hpref⟩
        · rintro (h | ⟨m', hm', hpref⟩)
          · exact .inl (.inl h)
          · rcases List.mem_cons.mp hm' with rfl | hm''
            · exact .inl (.inr hpref)
            · exact .inr ⟨m', hm'', hpref⟩

theorem extractArchives_ok (ss : Forest) (hwfss : wfForest ss = true) :
    ∀ (archives : List Archive) (cs : Forest),
      wfForest cs = true → conformsF ss cs →
      (∀ a ∈ archives, ∀ m ∈ a.members, memberOk ss m = true) →
      ∃ cs', extractArchives cs archives = .ok cs'
        ∧ wfForest cs' = true ∧ conformsF ss cs'
        ∧ ∀ q, q ≠ [] →
            ((nodeAt (.dir cs') q).isSome = true ↔
              (nodeAt (.dir cs) q).isSome = true
                ∨ ∃ a ∈ archives, ∃ m ∈ a.members, q <+: m.path)
  | [], cs, hwfcs, hcf, _ => ⟨cs, rfl, hwfcs, hcf, by simp⟩
  | a :: archives, cs, hwfcs, hcf, hok => by
      rcases extractMembers_ok ss hwfss a.members cs hwfcs hcf
        (hok a (List.mem_cons_self a archives)) with
        ⟨cs₁, h₁, hwf₁, hcf₁, hps₁⟩
      rcases extractArchives_ok ss hwfss archives cs₁ hwf₁ hcf₁
        (fun a' ha' => hok a' (List.mem_cons_of_mem a ha')) with
        ⟨cs₂, h₂, hwf₂, hcf₂, hps₂⟩
      refine ⟨cs₂, ?_, hwf₂, hcf₂, ?_⟩
      · simp only [extractArchives, h₁]
        show extractArchives cs₁ archives = .ok cs₂
        exact h₂
      · intro q hq
        rw [hps₂ q hq, hps₁ q hq]
        constructor
        · rintro ((h | ⟨m, hm, hpref⟩) | ⟨a', ha', m, hm, hpref⟩)
          · exact .inl h
          · exact .inr ⟨a, List.mem_cons_self a archives, m, hm, hpref⟩
          · exact .inr ⟨a', List.mem_cons_of_mem a ha', m, hm, hpref⟩
        · rintro (h | ⟨a', ha', m, hm, hpref⟩)
          · exact .inl (.inl h)
          · rcases List.mem_cons.mp ha' with rfl | ha''
            · exact .inl (.inr ⟨m, hm, hpref⟩)
            · exact .inr ⟨a', ha'', m, hm, hpref⟩

theorem isPathF_of_prefix (src : Forest) (p q : FPath)
    (hp : isPathF src p = true) (hq : q <+: p) : isPathF src q = true := by
  rcases hq with ⟨r, rfl⟩
  rw [isPathF, nodeAt_append] at hp
  rw [isPathF]
  rcases h : nodeAt (.dir src) q with _ | t
  · rw [h] at hp
    simp at hp
  · rfl

end Repobo

namespace Repobo

theorem do_backup_ok_cases (repo : List Archive) (src : Forest)
    (force : Bool) (now : Nat) (repo' : List Archive)
    (hok : do_backup repo src force false now = .ok repo')
    (hwrote : repo' ≠ repo) :
    (existsName repo now .full = false
      ∧ repo' = repo ++ [⟨now, .full, tarAddForest src []⟩])
    ∨ (existsName repo now .delta = false
        ∧ find_files repo now ≠ []
        ∧ pySubsetB (concat (find_files repo now))
            (listd (.dir src) [] []) = true
        ∧ pySetEq (concat (find_files repo now))
            (listd (.dir src) [] []) = false
        ∧ repo' = repo ++ [⟨now, .delta,
            (pyDiff (listd (.dir src) [] [])
              (concat (find_files repo now))).flatMap (addPath src)⟩]) := by
  have hfull : do_full_backup repo src now false = .ok repo' →
      existsName repo now .full = false
        ∧ repo' = repo ++ [⟨now, .full, tarAddForest src []⟩] := by
    intro h
    rcases hex : existsName repo now .full
    · rw [do_full_backup, hex] at h
      simp only [Bool.false_eq_true, if_false] at h
      injection h with h'
      exact ⟨rfl, h'.symm⟩
    · rw [do_full_backup, hex] at h
      simp at h
  by_cases hfb : (force || decide (find_files repo now = [])) = true
  · left
    apply hfull
    rw [← hok, do_backup, if_pos hfb]
  · have hforce : force = false := by
      cases force
      · rfl
      · simp at hfb
    have hne : find_files repo now ≠ [] := by
      intro hcon
      rw [hforce, hcon] at hfb
      simp at hfb
    subst hforce
    rw [do_backup_branches repo src false now hne] at hok
    rcases hseq : pySetEq (concat (find_files repo now))
        (listd (.dir src) [] [])
    · rw [if_neg (by simp [hseq])] at hok
      rcases hsub : pySubsetB (concat (find_files repo now))
          (listd (.dir src) [] [])
      · rw [if_pos (by simp [hsub])] at hok
        exact .inl (hfull hok)
      · rw [if_neg (by simp [hsub])] at hok
        right
        rcases hex : existsName repo now .delta
        · rw [do_incremental_backup, hex] at hok
          simp only [Bool.false_eq_true, if_false] at hok
          injection hok with h'
          exact ⟨rfl, hne, rfl, rfl, h'.symm⟩
        · rw [do_incremental_backup, hex] at hok
          simp at hok
    · rw [if_pos (by simp [hseq])] at hok
      injection hok with h'
      exact absurd h'.symm hwrote

theorem do_recover_some (repo : List Archive) (dest0 : Forest) (now : Nat)
    (hne : find_files repo now ≠ []) (dest' dest'' : Forest)
    (hext : extractArchives dest0 (find_files repo now) = .ok dest')
    (hrem : removeAll dest' (pyDiff (listd (.dir dest0) [] [])
        (concat (find_files repo now))) = .ok dest'') :
    do_recover repo (some dest0) none now = .ok (some dest'') := by
  simp only [do_recover, Option.getD]
  rw [if_neg (by simpa using hne)]
  rw [hext]
  show Except.bind (removeAll dest' (pyDiff (listd (.dir dest0) [] [])
    (concat (find_files repo now)))) (fun d => Except.ok (some d))
    = Except.ok (some dest'')
  rw [hrem]
  rfl

end Repobo

namespace Repobo

theorem mem_concat (files : List Archive) (x : FPath) :
    x ∈ concat files ↔ ∃ a ∈ files, ∃ m ∈ a.members, m.path = x := by
  rw [concat, List.mem_flatMap]
  constructor
  · rintro ⟨a, ha, hx⟩
    rcases List.mem_map.mp hx with ⟨m, hm, hmp⟩
    exact ⟨a, ha, m, hm, hmp⟩
  · rintro ⟨a, ha, m, hm, hmp⟩
    exact ⟨a, ha, List.mem_map.mpr ⟨m, hm, hmp⟩⟩

theorem addPath_self_mem (src : Forest) (x : FPath) (t : FsTree)
    (ht : nodeAt (.dir src) x = some t) :
    ∃ m ∈ addPath src x, m.path = x := by
  rw [addPath, ht]
  cases t
  · exact ⟨⟨x, false⟩, by simp [tarAddTree], rfl⟩
  · exact ⟨⟨x, true⟩, by simp [tarAddTree], rfl⟩

/-- C1 (amended): let a backup of source tree `S` into repository `R`
succeed and write an archive (`repo' ≠ repo`), with `S` well-formed and
unchanged.  Provided every member of every archive of the restore-time
chain names an existing path of `S` with the matching node type (the
hypothesis `memberOk`; archives written by this program from `S` satisfy
it, but an arbitrary pre-existing repository need not — see the
counterexample), restoring into an empty destination succeeds and the
destination's tree snapshot equals `S`'s snapshot as path sets. -/
theorem backup_restore_roundtrip (repo : List Archive) (src : Forest)
    (force : Bool) (now : Nat) (repo' : List Archive)
    (hwf : wfForest src = true)
    (hok : do_backup repo src force false now = .ok repo')
    (hwrote : repo' ≠ repo)
    (hcons : ∀ a ∈ find_files repo' now, ∀ m ∈ a.members,
      memberOk src m = true) :
    ∃ dest, do_recover repo' (some []) none now = .ok (some dest)
      ∧ wfForest dest = true
      ∧ pySetEq (listd (.dir dest) [] [])
          (listd (.dir src) [] []) = true := by
  have hcover : find_files repo' now ≠ []
      ∧ ∀ x ∈ listd (.dir src) [] [],
          ∃ a ∈ find_files repo' now, ∃ m ∈ a.members, m.path = x := by
    rcases do_backup_ok_cases repo src force now repo' hok hwrote with
      ⟨hnc, hrepo'⟩ | ⟨hnc, hne, hsub, hseq, hrepo'⟩
    · subst hrepo'
      rcases find_files_append_full repo ⟨now, .full, tarAddForest src []⟩
        now rfl rfl hnc with ⟨ds, hff, hds⟩
      rw [hff]
      refine ⟨by simp, ?_⟩
      intro x hx
      have hx' : x ∈ (tarAddForest src []).map (fun m => m.path) := by
        rw [tarAddForest_root_names]
        exact hx
      rcases List.mem_map.mp hx' with ⟨m, hm, hmp⟩
      exact ⟨⟨now, .full, tarAddForest src []⟩,
        List.mem_cons_self _ _, m, hm, hmp⟩
    · subst hrepo'
      rw [find_files_append_delta repo
        ⟨now, .delta, (pyDiff (listd (.dir src) [] [])
          (concat (find_files repo now))).flatMap (addPath src)⟩
        now rfl rfl hnc]
      refine ⟨by simp, ?_⟩
      intro x hx
      by_cases hxbk : x ∈ concat (find_files repo now)
      · rcases (mem_concat _ x).mp hxbk with ⟨a, ha, m, hm, hmp⟩
        exact ⟨a, List.mem_append_left _ ha, m, hm, hmp⟩
      · have hxd : x ∈ pyDiff (listd (.dir src) [] [])
            (concat (find_files repo now)) :=
          (mem_pyDiff _ _ x).mpr ⟨hx, hxbk⟩
        rcases (mem_rootListd_iff src hwf x).mp hx with ⟨hxne, hxpath⟩
        rw [isPathF, Option.isSome_iff_exists] at hxpath
        obtain ⟨t, ht⟩ := hxpath
        rcases addPath_self_mem src x t ht with ⟨m, hmem, hmp⟩
        refine ⟨⟨now, .delta, (pyDiff (listd (.dir src) [] [])
            (concat (find_files repo now))).flatMap (addPath src)⟩,
          List.mem_append_right _ (List.mem_singleton.mpr rfl), m, ?_, hmp⟩
        exact List.mem_flatMap.mpr ⟨x, hxd, hmem⟩
  rcases extractArchives_ok src hwf (find_files repo' now) [] rfl
    (conformsF_nil src) hcons with ⟨dest, hext, hwfdest, hcfdest, hps⟩
  have hdiff0 : pyDiff (listd (.dir ([] : Forest)) [] [])
      (concat (find_files repo' now)) = [] := rfl
  refine ⟨dest, do_recover_some repo' [] now hcover.1 dest dest hext
    (by rw [hdiff0]; rfl), hwfdest, ?_⟩
  rw [pySetEq_iff]
  intro x
  rw [mem_rootListd_iff dest hwfdest x, mem_rootListd_iff src hwf x]
  constructor
  · rintro ⟨hxne, hxp⟩
    refine ⟨hxne, ?_⟩
    rw [isPathF] at hxp
    rcases (hps x hxne).mp hxp with h0 | ⟨a, ha, m, hm, hpref⟩
    · exfalso
      cases x with
      | nil => exact hxne rfl
      | cons z zs => simp [nodeAt_dir_cons, childNamed] at h0
    · rcases memberOk_elim src m (hcons a ha m hm) with ⟨hmne, t, hmnode, -⟩
      exact isPathF_of_prefix src m.path x
        (by rw [isPathF, hmnode]; rfl) hpref
  · rintro ⟨hxne, hxp⟩
    refine ⟨hxne, ?_⟩
    rw [isPathF, hps x hxne]
    right
    rcases hcover.2 x ((mem_rootListd_iff src hwf x).mpr ⟨hxne, hxp⟩) with
      ⟨a, ha, m, hm, hmp⟩
    exact ⟨a, ha, m, hm, hmp ▸ List.prefix_refl _⟩

end Repobo

namespace Repobo

/-- C1 counterexample: the pre-existing repository holds a full archive
whose members type `x` as a plain file yet also contain `x/y`.  The
backup of the live tree `{x/, x/y, z}` succeeds and writes the
incremental `{z}`, but the restore then extracts the inconsistent full
archive into the empty destination: it creates file `x`, and extracting
member `x/y` walks into the file `x` and fails with
`NotADirectoryError` — so restore does not succeed, refuting the claim
for arbitrary repositories. -/
theorem roundtrip_counterexample :
    do_backup [⟨1, .full, [⟨["x"], false⟩, ⟨["x", "y"], false⟩]⟩]
        [("x", .dir [("y", .file)]), ("z", .file)] false false 2
      = .ok [⟨1, .full, [⟨["x"], false⟩, ⟨["x", "y"], false⟩]⟩,
          ⟨2, .delta, [⟨["z"], false⟩]⟩]
    ∧ do_recover [⟨1, .full, [⟨["x"], false⟩, ⟨["x", "y"], false⟩]⟩,
          ⟨2, .delta, [⟨["z"], false⟩]⟩] (some []) none 2
      = .error .notADirectoryError := by
  decide

theorem backup_restore_roundtrip_witness :
    wfForest [("a", FsTree.file)] = true
    ∧ do_backup [] [("a", FsTree.file)] false false 1
        = .ok [⟨1, .full, [⟨["a"], false⟩]⟩]
    ∧ ([⟨1, .full, [⟨["a"], false⟩]⟩] : List Archive) ≠ []
    ∧ (∀ a ∈ find_files [⟨1, .full, [⟨["a"], false⟩]⟩] 1, ∀ m ∈ a.members,
        memberOk [("a", FsTree.file)] m = true)
    ∧ ∃ dest, do_recover [⟨1, .full, [⟨["a"], false⟩]⟩] (some []) none 1
          = .ok (some dest)
        ∧ wfForest dest = true
        ∧ pySetEq (listd (.dir dest) [] [])
            (listd (.dir [("a", FsTree.file)]) [] []) = true :=
  ⟨by decide, by decide, by decide, by decide,
   backup_restore_roundtrip [] [("a", FsTree.file)] false 1
     [⟨1, .full, [⟨["a"], false⟩]⟩] (by decide) (by decide) (by decide)
     (by decide)⟩

end Repobo
